import Mathlib

/-!
# Verification of the Aho-Corasick automaton core

This file embeds the Aho-Corasick trie-with-suffix-links data structure exposed
by the `AhoCorasick` bindings (src/src/aho-corasick.cpp) and proves the
testable properties stated for it.  The underlying C++ implementation
(`libsemigroups/aho-corasick.hpp`) is not part of the repository sources, so
the operational definitions below are modelled from the specification
(spec.md §3 Data Model, §4 Component Design) and from the binding docstrings,
which describe the same contract.

Design: a flat arena of node records addressed by `Nat` index, a free list of
recycled (inactive) slots, sparse children maps as association lists, and
fuel-bounded recursion for the parent-walks and the suffix-link/goto-fail
traversal (the fuel is chosen large enough; fuel sufficiency for well-formed
automata is proved below).
-/

namespace AhoC

/-- Modelled from the spec: a trie node record (spec §3 Data Model).
`parent`/`parentLetter` are `none` for the root (and for cleared slots),
`children` is the sparse symbol-to-child-index mapping, `terminal` marks
nodes whose signature is a currently-inserted word, `active` distinguishes
live trie nodes from recycled arena slots. -/
structure Node where
  parent : Option Nat
  parentLetter : Option Nat
  children : List (Nat × Nat)
  terminal : Bool
  active : Bool
  deriving Repr, DecidableEq

/-- A cleared (freed) arena slot: all fields reset (spec §4.1: `free(i)`
"clears its children/parent/terminal/suffix-link fields"). -/
def blank : Node := ⟨none, none, [], false, false⟩

/-- Modelled from the spec: the automaton state — the node arena plus the
free list of inactive slot indices (spec §4.1, §9 "Memory reuse as an
explicit free-list", most-recently-freed-first). -/
structure AhoCorasick where
  nodes : List Node
  freeList : List Nat
  deriving Repr, DecidableEq

/-- The root index (spec §3: "The root (index 0) always exists"). -/
def root : Nat := 0

/-- Modelled from the spec: a freshly constructed automaton contains only the
active root with empty signature. -/
def emptyAC : AhoCorasick := ⟨[⟨none, none, [], false, true⟩], []⟩

namespace AhoCorasick

/-- Total arena size, active and inactive slots alike (spec §6:
"`number_of_nodes` (arena size, including inactive)"). -/
def number_of_nodes (ac : AhoCorasick) : Nat := ac.nodes.length

/-- Read a node record; out-of-range indices read as a cleared slot. -/
def node (ac : AhoCorasick) (i : Nat) : Node := ac.nodes.getD i blank

/-- Whether slot `i` currently holds an active trie node. -/
def isActive (ac : AhoCorasick) (i : Nat) : Bool := (ac.node i).active

/-- Overwrite the record in slot `i`. -/
def setNode (ac : AhoCorasick) (i : Nat) (n : Node) : AhoCorasick :=
  ⟨ac.nodes.set i n, ac.freeList⟩

/-- First-match association-list lookup, embedding `std::map::find` on the
sparse children maps. -/
def lookupA (a : Nat) : List (Nat × Nat) → Option Nat
  | [] => none
  | (k, v) :: es => if a = k then some v else lookupA a es

/-- Child lookup without index validation: the child of `p` along the edge
labelled `a`, or `none` when the edge is absent. -/
def childNoChecks (ac : AhoCorasick) (p a : Nat) : Option Nat :=
  lookupA a (ac.node p).children

/-- Set or clear the terminal flag of node `i`. -/
def setTerminal (ac : AhoCorasick) (i : Nat) (b : Bool) : AhoCorasick :=
  ac.setNode i { ac.node i with terminal := b }

/-- Modelled from the spec: arena allocation (spec §4.1): reuse the
most-recently-freed slot when one exists, else grow the arena.  The fresh
node is active, childless, non-terminal, with the given parent data. -/
def allocate (ac : AhoCorasick) (p a : Nat) : AhoCorasick × Nat :=
  match ac.freeList with
  | [] => (⟨ac.nodes ++ [⟨some p, some a, [], false, true⟩], []⟩, ac.nodes.length)
  | f :: rest => (⟨ac.nodes.set f ⟨some p, some a, [], false, true⟩, rest⟩, f)

/-- Record the child edge `p --a--> c` in `p`'s children map. -/
def addEdge (ac : AhoCorasick) (p a c : Nat) : AhoCorasick :=
  ac.setNode p { ac.node p with children := (ac.node p).children ++ [(a, c)] }

/-- Remove the child edge labelled `a` from `p`'s children map. -/
def eraseEdge (ac : AhoCorasick) (p a : Nat) : AhoCorasick :=
  ac.setNode p { ac.node p with children := (ac.node p).children.filter (fun x => x.1 ≠ a) }

/-- Return slot `i` to the free list with all fields cleared (spec §4.1). -/
def freeNode (ac : AhoCorasick) (i : Nat) : AhoCorasick :=
  ⟨ac.nodes.set i blank, i :: ac.freeList⟩

/-- Modelled from the spec: the insertion loop of `add_word` (spec §4.2):
from `cur`, for each symbol look up or create the child edge and advance;
after consuming the word, mark the final node terminal and return its index. -/
def addWordFrom (ac : AhoCorasick) (cur : Nat) : List Nat → AhoCorasick × Nat
  | [] => (ac.setTerminal cur true, cur)
  | a :: w =>
    match ac.childNoChecks cur a with
    | some c => addWordFrom ac c w
    | none =>
      match ac.allocate cur a with
      | (ac1, c) => addWordFrom (ac1.addEdge cur a c) c w

/-- Modelled from the spec: `add_word` (spec §4.2), starting at the root. -/
def add_word (ac : AhoCorasick) (w : List Nat) : AhoCorasick × Nat :=
  ac.addWordFrom root w

/-- Pure trie traversal (child edges only, no suffix-link fallback): the node
reached from `cur` by the word, or `none` when some edge is missing.  This is
the traversal used by `rm_word` and it also defines membership of a word in
the trie. -/
def traverseTrie (ac : AhoCorasick) (cur : Nat) : List Nat → Option Nat
  | [] => some cur
  | a :: w =>
    match ac.childNoChecks cur a with
    | some c => ac.traverseTrie c w
    | none => none

/-- Whether the word labels a root-to-node path of the trie. -/
def inTrie (ac : AhoCorasick) (w : List Nat) : Bool := (ac.traverseTrie root w).isSome

/-- Modelled from the spec: the upward freeing walk of `rm_word` (spec §4.2):
free the current node while it is not the root, not terminal and has no
remaining children (its edge having been erased from its parent), then ascend
to the parent.  `fuel` bounds the walk (one step per path node suffices). -/
def rmLoop (ac : AhoCorasick) (cur : Nat) : Nat → AhoCorasick
  | 0 => ac
  | fuel + 1 =>
    if cur = root then ac
    else if (ac.node cur).terminal then ac
    else if (ac.node cur).children ≠ [] then ac
    else
      rmLoop
        ((ac.eraseEdge ((ac.node cur).parent.getD root)
            ((ac.node cur).parentLetter.getD 0)).freeNode cur)
        ((ac.node cur).parent.getD root) fuel

/-- Modelled from the spec: `rm_word` (spec §4.2).  Traverse the trie along
the word; if no node is reached, or the reached node is not terminal, do
nothing (returning `none` when the traversal failed).  If the node has
children, only clear its terminal flag.  Otherwise clear the flag and free
nodes walking up toward the root. -/
def rm_word (ac : AhoCorasick) (w : List Nat) : AhoCorasick × Option Nat :=
  match ac.traverseTrie root w with
  | none => (ac, none)
  | some i =>
    if ¬ (ac.node i).terminal then (ac, some i)
    else if (ac.node i).children ≠ [] then (ac.setTerminal i false, some i)
    else ((ac.setTerminal i false).rmLoop i (w.length + 1), some i)

/-- Parent-walk computing the height of a node, `none` when the fuel runs out
before the root is reached (spec §3: height = number of parent steps to the
root). -/
def hF (ac : AhoCorasick) : Nat → Nat → Option Nat
  | 0, _ => none
  | fuel + 1, i =>
    if i = root then some 0
    else (ac.node i).parent.bind (fun p => (ac.hF fuel p).map (· + 1))

/-- Parent-walk reconstructing the signature of a node: the word of
`parentLetter` values along the path from the root (spec §3 Signature). -/
def sigF (ac : AhoCorasick) : Nat → Nat → Option (List Nat)
  | 0, _ => none
  | fuel + 1, i =>
    if i = root then some []
    else
      (ac.node i).parent.bind (fun p =>
        (ac.node i).parentLetter.bind (fun a =>
          (ac.sigF fuel p).map (· ++ [a])))

/-- The signature of node `i`, computed with arena-size fuel. -/
def sigOf (ac : AhoCorasick) (i : Nat) : List Nat :=
  (ac.sigF (ac.number_of_nodes + 1) i).getD []

/-- The height of node `i`, computed with arena-size fuel. -/
def heightOf (ac : AhoCorasick) (i : Nat) : Nat :=
  (ac.hF (ac.number_of_nodes + 1) i).getD 0

end AhoCorasick

/-- The error taxonomy of the validator (spec §7): an index never allocated
by the arena, or an allocated index currently recycled; each error carries
the offending index. -/
inductive AcError where
  | invalidIndex (i : Nat)
  | inactiveIndex (i : Nat)
  deriving Repr, DecidableEq

namespace AhoCorasick

/-- Modelled from the spec: `validate_node_index` (spec §4.5): fail iff the
index is outside the arena's allocated range. -/
def validate_node_index (ac : AhoCorasick) (i : Nat) : Except AcError Unit :=
  if i < ac.number_of_nodes then .ok () else .error (.invalidIndex i)

/-- Modelled from the spec: `validate_active_node_index` (spec §4.5): the
range check, then fail if the slot is inactive. -/
def validate_active_node_index (ac : AhoCorasick) (i : Nat) : Except AcError Unit := do
  ac.validate_node_index i
  if ac.isActive i then pure () else .error (.inactiveIndex i)

mutual

/-- Modelled from the spec: the suffix-link resolver (spec §4.3), as a
fuel-bounded recursion mutual with the goto/fail traversal.
`slFuel fuel n`: the suffix link of `n` — the root for the root itself and
for children of the root, else the fallback traversal by `n`'s edge letter
from the suffix link of `n`'s parent. -/
def slFuel (ac : AhoCorasick) : Nat → Nat → Nat
  | 0, _ => root
  | fuel + 1, n =>
    if n = root then root
    else if (ac.node n).parent.getD root = root then root
    else
      ac.travFuel fuel (ac.slFuel fuel ((ac.node n).parent.getD root))
        ((ac.node n).parentLetter.getD 0)
termination_by fuel _ => (fuel, 0)

/-- Modelled from the spec: `traverse` (spec §4.4): follow the child edge
labelled `a` when present; otherwise stay at the root, or fall back through
the suffix link (with no fuel left, the fallback gives up at the root). -/
def travFuel (ac : AhoCorasick) : Nat → Nat → Nat → Nat
  | 0, cur, a => (ac.childNoChecks cur a).getD root
  | fuel + 1, cur, a =>
    (ac.childNoChecks cur a).getD
      (if cur = root then root
       else ac.travFuel fuel (ac.slFuel fuel cur) a)
termination_by fuel _ _ => (fuel, 1)

end

/-- Fuel large enough for any suffix-link resolution in a well-formed
automaton (proved below: `2 * height` suffices for `slFuel` and
`2 * height + 1` for `travFuel`, and heights are below the arena size). -/
def bigFuel (ac : AhoCorasick) : Nat := 2 * ac.number_of_nodes + 1

/-- Modelled from the spec: the public `suffix_link(current)` — validate the
index, then resolve the suffix link (spec §4.3; error on invalid or inactive
indices, spec §4.3 "Failure"). -/
def suffix_link (ac : AhoCorasick) (current : Nat) : Except AcError Nat := do
  ac.validate_active_node_index current
  pure (ac.slFuel ac.bigFuel current)

/-- Modelled from the spec: the public `traverse(current, a)` — validate the
index, then the goto/fail traversal (spec §4.4). -/
def traverse (ac : AhoCorasick) (current a : Nat) : Except AcError Nat := do
  ac.validate_active_node_index current
  pure (ac.travFuel ac.bigFuel current a)

/-- Modelled from the spec: `traverse_word(start, w)` folds the single-symbol
traversal over the word from `start` (spec §4.4). -/
def traverse_word (ac : AhoCorasick) (start : Nat) (w : List Nat) :
    Except AcError Nat := do
  ac.validate_active_node_index start
  pure (w.foldl (fun cur a => ac.travFuel ac.bigFuel cur a) start)

/-- Modelled from the spec: the start-less overload of `traverse_word`
traverses from the root (spec §4.4 "or the root if unspecified"). -/
def traverse_word_root (ac : AhoCorasick) (w : List Nat) : Except AcError Nat :=
  ac.traverse_word root w

/-- Modelled from the spec: the public `signature(i)` (spec §6): validate,
then reconstruct the word by walking parent links. -/
def signature (ac : AhoCorasick) (i : Nat) : Except AcError (List Nat) := do
  ac.validate_active_node_index i
  pure (ac.sigOf i)

/-- Modelled from the spec: the public `height(i)` (spec §6). -/
def height (ac : AhoCorasick) (i : Nat) : Except AcError Nat := do
  ac.validate_active_node_index i
  pure (ac.heightOf i)

/-- Modelled from the spec: the public `child(parent, letter)` (binding
docstring): validate `parent`, then return the child index, `none` standing
for the `UNDEFINED` sentinel when no child along `letter` exists. -/
def child (ac : AhoCorasick) (parent letter : Nat) : Except AcError (Option Nat) := do
  ac.validate_active_node_index parent
  pure (ac.childNoChecks parent letter)

end AhoCorasick

/-! ## String overloads

The bindings expose `add_word`, `rm_word` and `traverse_word` also on
`str`, instantiating the same C++ templates with `std::string`; each
character is used as a symbol.  We embed them as recursions over `List Char`
mirroring the template instantiation, converting each character to its code
point at the site where it is used as a letter. -/

namespace AhoCorasick

/-- Modelled from the spec: the `str` overload of `add_word`'s insertion
loop, each character converted where it indexes the children map. -/
def addWordFromStr (ac : AhoCorasick) (cur : Nat) : List Char → AhoCorasick × Nat
  | [] => (ac.setTerminal cur true, cur)
  | c :: s =>
    match ac.childNoChecks cur c.toNat with
    | some d => addWordFromStr ac d s
    | none =>
      match ac.allocate cur c.toNat with
      | (ac1, d) => addWordFromStr (ac1.addEdge cur c.toNat d) d s

/-- Modelled from the spec: the `str` overload of `add_word`. -/
def add_word_str (ac : AhoCorasick) (s : List Char) : AhoCorasick × Nat :=
  ac.addWordFromStr root s

/-- Pure trie traversal over characters. -/
def traverseTrieStr (ac : AhoCorasick) (cur : Nat) : List Char → Option Nat
  | [] => some cur
  | c :: s =>
    match ac.childNoChecks cur c.toNat with
    | some d => ac.traverseTrieStr d s
    | none => none

/-- Modelled from the spec: the `str` overload of `rm_word`. -/
def rm_word_str (ac : AhoCorasick) (s : List Char) : AhoCorasick × Option Nat :=
  match ac.traverseTrieStr root s with
  | none => (ac, none)
  | some i =>
    if ¬ (ac.node i).terminal then (ac, some i)
    else if (ac.node i).children ≠ [] then (ac.setTerminal i false, some i)
    else ((ac.setTerminal i false).rmLoop i (s.length + 1), some i)

/-- Modelled from the spec: the `str` overload of `traverse_word`. -/
def traverse_word_str (ac : AhoCorasick) (start : Nat) (s : List Char) :
    Except AcError Nat := do
  ac.validate_active_node_index start
  pure (s.foldl (fun cur c => ac.travFuel ac.bigFuel cur c.toNat) start)

/-- Modelled from the spec: the start-less `str` overload of
`traverse_word`. -/
def traverse_word_str_root (ac : AhoCorasick) (s : List Char) : Except AcError Nat :=
  ac.traverse_word_str root s

end AhoCorasick

/-! ## Specification-side notions

`lsuf ac u` is the longest suffix of `u` that labels a path of the trie;
the suffix-link and traversal claims are stated against it. -/

/-- The longest suffix of `u` present in the trie (the empty word — the
root's signature — is always present). -/
def lsuf (ac : AhoCorasick) : List Nat → List Nat
  | [] => []
  | a :: u => if ac.inTrie (a :: u) then a :: u else lsuf ac u

/-- `s` is the longest suffix of `u` that labels a path of the trie. -/
def IsLongestTrieSuffix (ac : AhoCorasick) (u s : List Nat) : Prop :=
  s <:+ u ∧ ac.inTrie s = true ∧ ∀ t, t <:+ u → ac.inTrie t = true → t.length ≤ s.length

/-! ## Well-formedness invariants

Decidable predicates capturing the data-model invariants of spec §3; they
hold for every automaton reachable through the public interface, and each
claim theorem that assumes them comes with a concrete instantiation. -/

/-- The root invariant: index 0 is an allocated, active node with no parent
data (spec §3: "The root (index 0) always exists, is always active, has
undefined parent and parent_letter"). -/
def RootOk (ac : AhoCorasick) : Prop :=
  0 < ac.number_of_nodes ∧ ac.isActive AhoC.root = true ∧
    (ac.node AhoC.root).parent = none ∧ (ac.node AhoC.root).parentLetter = none

/-- The free-list invariant: recycled slots are pairwise distinct, allocated,
and inactive (spec §4.1, glossary "Active / inactive node"). -/
def FreeOk (ac : AhoCorasick) : Prop :=
  ac.freeList.Nodup ∧
    ∀ f ∈ ac.freeList, f < ac.number_of_nodes ∧ ac.isActive f = false

/-- Downward coherence of edges (spec §3: "`children` never maps a symbol to
an inactive or nonexistent index", and parent/parent-letter record the unique
incoming edge). -/
def EdgeOk (ac : AhoCorasick) : Prop :=
  ∀ p < ac.number_of_nodes, ac.isActive p = true →
    ∀ pr ∈ (ac.node p).children, pr.2 < ac.number_of_nodes ∧
      ac.isActive pr.2 = true ∧ (ac.node pr.2).parent = some p ∧
      (ac.node pr.2).parentLetter = some pr.1

/-- The invariants used by the insertion lemmas. -/
def AddInv (ac : AhoCorasick) : Prop := RootOk ac ∧ FreeOk ac ∧ EdgeOk ac

/-- Children maps are functional: no symbol labels two edges out of a node. -/
def KeysOk (ac : AhoCorasick) : Prop :=
  ∀ p < ac.number_of_nodes, ac.isActive p = true →
    ((ac.node p).children.map Prod.fst).Nodup

/-- One node's upward coherence check: it records a parent and an edge
letter, and the parent is an allocated active node owning the corresponding
child edge. -/
def parentOkAt (ac : AhoCorasick) (c : Nat) : Bool :=
  ((ac.node c).parent.bind (fun p =>
    (ac.node c).parentLetter.map (fun a =>
      decide (p < ac.number_of_nodes) && ac.isActive p &&
        decide ((a, c) ∈ (ac.node p).children)))).getD false

/-- Upward coherence of edges: every active non-root node records its parent,
which is an active node owning the corresponding child edge. -/
def ParentOk (ac : AhoCorasick) : Prop :=
  ∀ c < ac.number_of_nodes, ac.isActive c = true → c ≠ AhoC.root →
    parentOkAt ac c = true

/-- Every active node's parent chain reaches the root (spec §3: "following
`parent` links terminates at the root in exactly `height` steps"). -/
def HeightsOk (ac : AhoCorasick) : Prop :=
  ∀ c < ac.number_of_nodes, ac.isActive c = true →
    (ac.hF ac.number_of_nodes c).isSome = true

/-- Full well-formedness of an automaton state (spec §3 Invariants). -/
def WF (ac : AhoCorasick) : Prop :=
  AddInv ac ∧ KeysOk ac ∧ ParentOk ac ∧ HeightsOk ac

instance (ac : AhoCorasick) : Decidable (RootOk ac) := by
  unfold RootOk; infer_instance

instance (ac : AhoCorasick) : Decidable (FreeOk ac) := by
  unfold FreeOk; infer_instance

instance (ac : AhoCorasick) : Decidable (EdgeOk ac) := by
  unfold EdgeOk; infer_instance

instance (ac : AhoCorasick) : Decidable (AddInv ac) := by
  unfold AddInv; infer_instance

instance (ac : AhoCorasick) : Decidable (KeysOk ac) := by
  unfold KeysOk; infer_instance

instance (ac : AhoCorasick) : Decidable (ParentOk ac) := by
  unfold ParentOk; infer_instance

instance (ac : AhoCorasick) : Decidable (HeightsOk ac) := by
  unfold HeightsOk; infer_instance

instance (ac : AhoCorasick) : Decidable (WF ac) := by
  unfold WF; infer_instance

/-- Proof-side parent chain of a node: the list of indices visited walking
parent links down to the root. -/
def chainF (ac : AhoCorasick) : Nat → Nat → Option (List Nat)
  | 0, _ => none
  | fuel + 1, i =>
    if i = AhoC.root then some [AhoC.root]
    else (ac.node i).parent.bind (fun p => (chainF ac fuel p).map (i :: ·))

/-- Proof-side relation: `ac2` extends `ac` — every active node stays active
with its parent data, every existing child edge persists, and the arena does
not shrink.  Insertion steps produce extensions. -/
def Extends (ac ac2 : AhoCorasick) : Prop :=
  (∀ j, ac.isActive j = true → ac2.isActive j = true) ∧
  (∀ j, ac.isActive j = true →
    (ac2.node j).parent = (ac.node j).parent ∧
    (ac2.node j).parentLetter = (ac.node j).parentLetter) ∧
  (∀ p b c, ac.isActive p = true → ac.childNoChecks p b = some c →
    ac2.childNoChecks p b = some c) ∧
  ac.number_of_nodes ≤ ac2.number_of_nodes

/-- Proof-side description of the chain of nodes created by inserting a
fresh word: the node entered by letter `a` from parent `p` sits at index
`base`, each remaining letter extends the chain by one node, and the last
node is terminal. -/
def lineFrom (p base a : Nat) : List Nat → List Node
  | [] => [⟨some p, some a, [], true, true⟩]
  | b :: w => ⟨some p, some a, [(b, base + 1)], false, true⟩ :: lineFrom base (base + 1) b w

/-- The same chain with the terminal flag of the last node cleared — the
state of the chain at the start of the upward freeing walk of `rm_word`. -/
def lineStub (p base a : Nat) : List Nat → List Node
  | [] => [⟨some p, some a, [], false, true⟩]
  | b :: w => ⟨some p, some a, [(b, base + 1)], false, true⟩ :: lineStub base (base + 1) b w

/-! ## The classic example

The automaton holding `"he"`, `"she"`, `"his"`, `"hers"` (inserted in that
order), with letters the character code points, exactly as the `str`
overloads insert them. -/

/-- The four words of the classic Aho-Corasick example. -/
def exW1 : List Char := ['h', 'e']

/-- `"she"`. -/
def exW2 : List Char := ['s', 'h', 'e']

/-- `"his"`. -/
def exW3 : List Char := ['h', 'i', 's']

/-- `"hers"`. -/
def exW4 : List Char := ['h', 'e', 'r', 's']

/-- The example automaton after inserting `"he"`, `"she"`, `"his"`,
`"hers"` in that order. -/
def acex : AhoCorasick :=
  (((((emptyAC.add_word_str exW1).1.add_word_str exW2).1.add_word_str
      exW3).1.add_word_str exW4).1)

/-! ## Basic lemmas: lookup, arena access, traversal -/

namespace AhoCorasick

theorem lookupA_mem {a c : Nat} : ∀ {l : List (Nat × Nat)},
    lookupA a l = some c → (a, c) ∈ l := by
  intro l
  induction l with
  | nil => intro h; cases h
  | cons x es ih =>
    obtain ⟨k, v⟩ := x
    intro h
    by_cases hk : a = k
    · subst hk
      simp [lookupA] at h
      simp [h]
    · simp [lookupA, hk] at h
      exact List.mem_cons_of_mem _ (ih h)

theorem lookupA_append_some {a c : Nat} {l1 l2 : List (Nat × Nat)}
    (h : lookupA a l1 = some c) : lookupA a (l1 ++ l2) = some c := by
  induction l1 with
  | nil => cases h
  | cons x es ih =>
    obtain ⟨k, v⟩ := x
    by_cases hk : a = k
    · subst hk; simpa [lookupA] using h
    · simp [lookupA, hk] at h ⊢; exact ih h

theorem lookupA_append_none {a : Nat} {l1 l2 : List (Nat × Nat)}
    (h : lookupA a l1 = none) : lookupA a (l1 ++ l2) = lookupA a l2 := by
  induction l1 with
  | nil => rfl
  | cons x es ih =>
    obtain ⟨k, v⟩ := x
    by_cases hk : a = k
    · simp [lookupA, hk] at h
    · simp [lookupA, hk] at h ⊢; exact ih h

theorem lookupA_of_mem_nodup {a c : Nat} {l : List (Nat × Nat)}
    (hnd : (l.map Prod.fst).Nodup) (hm : (a, c) ∈ l) : lookupA a l = some c := by
  induction l with
  | nil => cases hm
  | cons x es ih =>
    obtain ⟨k, v⟩ := x
    rw [List.map_cons, List.nodup_cons] at hnd
    rcases List.mem_cons.mp hm with h | h
    · cases h; simp [lookupA]
    · have hk : a ≠ k := by
        intro hak
        subst hak
        exact hnd.1 (List.mem_map.mpr ⟨(a, c), h, rfl⟩)
      simp only [lookupA, if_neg hk]
      exact ih hnd.2 h

theorem lookupA_filter_self {a : Nat} (l : List (Nat × Nat)) :
    lookupA a (l.filter (fun x => x.1 ≠ a)) = none := by
  induction l with
  | nil => rfl
  | cons x es ih =>
    obtain ⟨k, v⟩ := x
    rw [List.filter_cons]
    by_cases hk : k = a
    · have hd : (decide ((k, v).1 ≠ a)) = false := by simp [hk]
      rw [hd]
      simpa using ih
    · have hd : (decide ((k, v).1 ≠ a)) = true := by simp [hk]
      rw [hd]
      simp only [if_true]
      have hak : a ≠ k := fun h => hk h.symm
      show lookupA a ((k, v) :: es.filter _) = none
      simp only [lookupA, if_neg hak]
      exact ih

theorem lookupA_filter_ne {a b : Nat} (hab : b ≠ a) (l : List (Nat × Nat)) :
    lookupA b (l.filter (fun x => x.1 ≠ a)) = lookupA b l := by
  induction l with
  | nil => rfl
  | cons x es ih =>
    obtain ⟨k, v⟩ := x
    rw [List.filter_cons]
    by_cases hk : k = a
    · have hd : (decide ((k, v).1 ≠ a)) = false := by simp [hk]
      rw [hd]
      have hbk : b ≠ k := hk ▸ hab
      simp only [Bool.false_eq_true, if_false]
      rw [ih]
      simp only [lookupA, if_neg hbk]
    · have hd : (decide ((k, v).1 ≠ a)) = true := by simp [hk]
      rw [hd]
      simp only [if_true]
      by_cases hbk : b = k
      · subst hbk
        simp [lookupA]
      · show lookupA b ((k, v) :: es.filter _) = _
        simp only [lookupA, if_neg hbk]
        exact ih

theorem node_of_le {ac : AhoCorasick} {i : Nat} (h : ac.number_of_nodes ≤ i) :
    ac.node i = blank :=
  List.getD_eq_default _ _ h

theorem lt_of_isActive {ac : AhoCorasick} {i : Nat} (h : ac.isActive i = true) :
    i < ac.number_of_nodes := by
  by_contra hlt
  rw [isActive, node_of_le (Nat.le_of_not_lt hlt)] at h
  cases h

theorem node_setNode_self {ac : AhoCorasick} {i : Nat} (v : Node)
    (h : i < ac.number_of_nodes) : (ac.setNode i v).node i = v := by
  simp [setNode, node, List.getD, List.getElem?_set_self, h, number_of_nodes]
  rw [List.getElem?_set_self (by simpa [number_of_nodes] using h)]
  rfl

theorem node_setNode_ne {ac : AhoCorasick} {i j : Nat} (v : Node)
    (h : j ≠ i) : (ac.setNode i v).node j = ac.node j := by
  simp [setNode, node, List.getD]
  rw [List.getElem?_set_ne (fun hh => h hh.symm)]

theorem number_of_nodes_setNode (ac : AhoCorasick) (i : Nat) (v : Node) :
    (ac.setNode i v).number_of_nodes = ac.number_of_nodes := by
  simp [setNode, number_of_nodes]

theorem freeList_setNode (ac : AhoCorasick) (i : Nat) (v : Node) :
    (ac.setNode i v).freeList = ac.freeList := rfl

theorem node_setNode (ac : AhoCorasick) (i j : Nat) (v : Node) :
    (ac.setNode i v).node j =
      if j = i ∧ i < ac.number_of_nodes then v else ac.node j := by
  split
  · next h => rw [h.1]; exact node_setNode_self v h.2
  · next h =>
    by_cases hji : j = i
    · subst hji
      have hle : ac.number_of_nodes ≤ j := by
        rcases Nat.lt_or_ge j ac.number_of_nodes with hlt | hge
        · exact absurd ⟨rfl, hlt⟩ h
        · exact hge
      simp [setNode, node, List.set_eq_of_length_le (by simpa [number_of_nodes] using hle)]
    · exact node_setNode_ne v hji

theorem setNode_self {ac : AhoCorasick} {i : Nat} {v : Node}
    (h : ac.node i = v) : ac.setNode i v = ac := by
  obtain ⟨nodes, fl⟩ := ac
  simp only [setNode, AhoCorasick.mk.injEq, and_true]
  apply List.ext_getElem?
  intro j
  rw [List.getElem?_set]
  split
  · next hij =>
    subst hij
    by_cases hi : i < nodes.length
    · simp [hi]
      simp [node, List.getD, List.getElem?_eq_getElem hi] at h
      exact h.symm
    · simp [hi, List.getElem?_eq_none (Nat.le_of_not_lt hi)]
  · rfl

/-! ### Projection lemmas for the mutators -/

theorem children_setTerminal (ac : AhoCorasick) (i : Nat) (b : Bool) (j : Nat) :
    ((ac.setTerminal i b).node j).children = (ac.node j).children := by
  rw [setTerminal, node_setNode]
  split
  · next h => rw [h.1]
  · rfl

theorem active_setTerminal (ac : AhoCorasick) (i : Nat) (b : Bool) (j : Nat) :
    ((ac.setTerminal i b).node j).active = (ac.node j).active := by
  rw [setTerminal, node_setNode]
  split
  · next h => rw [h.1]
  · rfl

theorem parent_setTerminal (ac : AhoCorasick) (i : Nat) (b : Bool) (j : Nat) :
    ((ac.setTerminal i b).node j).parent = (ac.node j).parent := by
  rw [setTerminal, node_setNode]
  split
  · next h => rw [h.1]
  · rfl

theorem parentLetter_setTerminal (ac : AhoCorasick) (i : Nat) (b : Bool) (j : Nat) :
    ((ac.setTerminal i b).node j).parentLetter = (ac.node j).parentLetter := by
  rw [setTerminal, node_setNode]
  split
  · next h => rw [h.1]
  · rfl

theorem terminal_setTerminal_self {ac : AhoCorasick} {i : Nat} (b : Bool)
    (h : i < ac.number_of_nodes) : ((ac.setTerminal i b).node i).terminal = b := by
  rw [setTerminal, node_setNode]
  rw [if_pos ⟨rfl, h⟩]

theorem node_setTerminal_ne {ac : AhoCorasick} {i j : Nat} (b : Bool)
    (h : j ≠ i) : (ac.setTerminal i b).node j = ac.node j := by
  rw [setTerminal, node_setNode, if_neg (fun hc => h hc.1)]

theorem number_of_nodes_setTerminal (ac : AhoCorasick) (i : Nat) (b : Bool) :
    (ac.setTerminal i b).number_of_nodes = ac.number_of_nodes :=
  number_of_nodes_setNode ..

theorem freeList_setTerminal (ac : AhoCorasick) (i : Nat) (b : Bool) :
    (ac.setTerminal i b).freeList = ac.freeList := rfl

theorem childNoChecks_setTerminal (ac : AhoCorasick) (i : Nat) (b : Bool)
    (p a : Nat) : (ac.setTerminal i b).childNoChecks p a = ac.childNoChecks p a := by
  rw [childNoChecks, childNoChecks, children_setTerminal]

theorem traverseTrie_congr {ac ac' : AhoCorasick}
    (h : ∀ p a, ac'.childNoChecks p a = ac.childNoChecks p a) :
    ∀ (w : List Nat) (q : Nat), ac'.traverseTrie q w = ac.traverseTrie q w := by
  intro w
  induction w with
  | nil => intro q; rfl
  | cons a w ih =>
    intro q
    rw [traverseTrie, traverseTrie, h q a]
    cases ac.childNoChecks q a with
    | none => rfl
    | some c => exact ih c

theorem traverseTrie_setTerminal (ac : AhoCorasick) (i : Nat) (b : Bool)
    (w : List Nat) (q : Nat) :
    (ac.setTerminal i b).traverseTrie q w = ac.traverseTrie q w :=
  traverseTrie_congr (fun p a => childNoChecks_setTerminal ac i b p a) w q

theorem traverseTrie_append (ac : AhoCorasick) (u v : List Nat) (q : Nat) :
    ac.traverseTrie q (u ++ v) =
      (ac.traverseTrie q u).bind (fun r => ac.traverseTrie r v) := by
  induction u generalizing q with
  | nil => rfl
  | cons a u ih =>
    rw [List.cons_append, traverseTrie, traverseTrie]
    cases ac.childNoChecks q a with
    | none => rfl
    | some c => exact ih c

theorem number_of_nodes_eraseEdge (ac : AhoCorasick) (p a : Nat) :
    (ac.eraseEdge p a).number_of_nodes = ac.number_of_nodes :=
  number_of_nodes_setNode ..

theorem number_of_nodes_freeNode (ac : AhoCorasick) (i : Nat) :
    (ac.freeNode i).number_of_nodes = ac.number_of_nodes := by
  simp [freeNode, number_of_nodes]

theorem number_of_nodes_rmLoop (ac : AhoCorasick) (cur : Nat) :
    ∀ fuel, (ac.rmLoop cur fuel).number_of_nodes = ac.number_of_nodes := by
  intro fuel
  induction fuel generalizing ac cur with
  | zero => rfl
  | succ fuel ih =>
    rw [rmLoop]
    split
    · rfl
    · split
      · rfl
      · split
        · rfl
        · rw [ih, number_of_nodes_freeNode, number_of_nodes_eraseEdge]

theorem number_of_nodes_rm_word (ac : AhoCorasick) (w : List Nat) :
    (ac.rm_word w).1.number_of_nodes = ac.number_of_nodes := by
  rw [rm_word]
  cases htr : ac.traverseTrie root w with
  | none => rfl
  | some i =>
    simp only []
    split
    · rfl
    · split
      · exact number_of_nodes_setTerminal ..
      · rw [number_of_nodes_rmLoop, number_of_nodes_setTerminal]

/-! ### Validator lemmas -/

theorem validate_node_index_ok {ac : AhoCorasick} {i : Nat}
    (h : i < ac.number_of_nodes) : ac.validate_node_index i = .ok () := by
  rw [validate_node_index, if_pos h]

theorem validate_node_index_err {ac : AhoCorasick} {i : Nat}
    (h : ac.number_of_nodes ≤ i) :
    ac.validate_node_index i = .error (.invalidIndex i) := by
  rw [validate_node_index, if_neg (Nat.not_lt.mpr h)]

theorem validate_active_ok {ac : AhoCorasick} {i : Nat}
    (h : ac.isActive i = true) : ac.validate_active_node_index i = .ok () := by
  rw [validate_active_node_index, validate_node_index_ok (lt_of_isActive h)]
  simp [h]

theorem validate_active_err_inactive {ac : AhoCorasick} {i : Nat}
    (h1 : i < ac.number_of_nodes) (h2 : ac.isActive i = false) :
    ac.validate_active_node_index i = .error (.inactiveIndex i) := by
  rw [validate_active_node_index, validate_node_index_ok h1]
  simp [h2]
  rfl

theorem validate_active_err_range {ac : AhoCorasick} {i : Nat}
    (h : ac.number_of_nodes ≤ i) :
    ac.validate_active_node_index i = .error (.invalidIndex i) := by
  rw [validate_active_node_index, validate_node_index_err h]
  rfl

theorem validate_active_cases (ac : AhoCorasick) (i : Nat) :
    ac.validate_active_node_index i =
      (if ac.isActive i then .ok ()
       else if i < ac.number_of_nodes then .error (.inactiveIndex i)
       else .error (.invalidIndex i)) := by
  by_cases ha : ac.isActive i
  · rw [validate_active_ok ha, if_pos ha]
  · rw [if_neg ha]
    by_cases hlt : i < ac.number_of_nodes
    · rw [validate_active_err_inactive hlt (Bool.not_eq_true _ ▸ ha), if_pos hlt]
    · rw [validate_active_err_range (Nat.le_of_not_lt hlt), if_neg hlt]

/-! ### Propagation of validation through the public operations -/

theorem suffix_link_ok {ac : AhoCorasick} {i : Nat} (h : ac.isActive i = true) :
    ac.suffix_link i = .ok (ac.slFuel ac.bigFuel i) := by
  rw [suffix_link, validate_active_ok h]; rfl

theorem suffix_link_err {ac : AhoCorasick} {i : Nat} {e : AcError}
    (h : ac.validate_active_node_index i = .error e) :
    ac.suffix_link i = .error e := by
  rw [suffix_link, h]; rfl

theorem traverse_ok {ac : AhoCorasick} {i : Nat} (a : Nat)
    (h : ac.isActive i = true) :
    ac.traverse i a = .ok (ac.travFuel ac.bigFuel i a) := by
  rw [traverse, validate_active_ok h]; rfl

theorem traverse_err {ac : AhoCorasick} {i : Nat} {e : AcError} (a : Nat)
    (h : ac.validate_active_node_index i = .error e) :
    ac.traverse i a = .error e := by
  rw [traverse, h]; rfl

theorem signature_ok {ac : AhoCorasick} {i : Nat} (h : ac.isActive i = true) :
    ac.signature i = .ok (ac.sigOf i) := by
  rw [signature, validate_active_ok h]; rfl

theorem signature_err {ac : AhoCorasick} {i : Nat} {e : AcError}
    (h : ac.validate_active_node_index i = .error e) :
    ac.signature i = .error e := by
  rw [signature, h]; rfl

theorem height_ok {ac : AhoCorasick} {i : Nat} (h : ac.isActive i = true) :
    ac.height i = .ok (ac.heightOf i) := by
  rw [height, validate_active_ok h]; rfl

theorem height_err {ac : AhoCorasick} {i : Nat} {e : AcError}
    (h : ac.validate_active_node_index i = .error e) :
    ac.height i = .error e := by
  rw [height, h]; rfl

theorem child_ok {ac : AhoCorasick} {i : Nat} (a : Nat)
    (h : ac.isActive i = true) :
    ac.child i a = .ok (ac.childNoChecks i a) := by
  rw [child, validate_active_ok h]; rfl

theorem child_err {ac : AhoCorasick} {i : Nat} {e : AcError} (a : Nat)
    (h : ac.validate_active_node_index i = .error e) :
    ac.child i a = .error e := by
  rw [child, h]; rfl

theorem traverse_word_ok {ac : AhoCorasick} {i : Nat} (w : List Nat)
    (h : ac.isActive i = true) :
    ac.traverse_word i w =
      .ok (w.foldl (fun cur a => ac.travFuel ac.bigFuel cur a) i) := by
  rw [traverse_word, validate_active_ok h]; rfl

theorem traverse_word_err {ac : AhoCorasick} {i : Nat} {e : AcError}
    (w : List Nat) (h : ac.validate_active_node_index i = .error e) :
    ac.traverse_word i w = .error e := by
  rw [traverse_word, h]; rfl

/-! ### Equivalence of the `str` overloads with the word overloads -/

theorem addWordFromStr_eq (ac : AhoCorasick) (cur : Nat) (s : List Char) :
    ac.addWordFromStr cur s = ac.addWordFrom cur (s.map Char.toNat) := by
  induction s generalizing ac cur with
  | nil => rfl
  | cons c s ih =>
    rw [List.map_cons, addWordFromStr, addWordFrom]
    cases ac.childNoChecks cur c.toNat with
    | some d => exact ih ac d
    | none => exact ih ..

theorem add_word_str_eq (ac : AhoCorasick) (s : List Char) :
    ac.add_word_str s = ac.add_word (s.map Char.toNat) :=
  addWordFromStr_eq ac root s

theorem traverseTrieStr_eq (ac : AhoCorasick) (cur : Nat) (s : List Char) :
    ac.traverseTrieStr cur s = ac.traverseTrie cur (s.map Char.toNat) := by
  induction s generalizing cur with
  | nil => rfl
  | cons c s ih =>
    rw [List.map_cons, traverseTrieStr, traverseTrie]
    cases ac.childNoChecks cur c.toNat with
    | some d => exact ih d
    | none => rfl

theorem rm_word_str_eq (ac : AhoCorasick) (s : List Char) :
    ac.rm_word_str s = ac.rm_word (s.map Char.toNat) := by
  rw [rm_word_str, rm_word, traverseTrieStr_eq]
  cases ac.traverseTrie root (s.map Char.toNat) with
  | none => rfl
  | some i =>
    simp only [List.length_map]

theorem traverse_word_str_eq (ac : AhoCorasick) (start : Nat) (s : List Char) :
    ac.traverse_word_str start s = ac.traverse_word start (s.map Char.toNat) := by
  rw [traverse_word_str, traverse_word, List.foldl_map]

theorem countP_active_split (l : List Node) :
    l.countP (fun n => n.active) + l.countP (fun n => !n.active) = l.length := by
  induction l with
  | nil => rfl
  | cons x t ih =>
    cases hx : x.active <;>
      simp [List.countP_cons, hx] <;> omega

/-! ### Projections of `addEdge` and `allocate` -/

theorem node_addEdge (ac : AhoCorasick) (p a c j : Nat) :
    (ac.addEdge p a c).node j =
      if j = p ∧ p < ac.number_of_nodes
      then { ac.node p with children := (ac.node p).children ++ [(a, c)] }
      else ac.node j := by
  rw [addEdge, node_setNode]

theorem active_addEdge (ac : AhoCorasick) (p a c j : Nat) :
    ((ac.addEdge p a c).node j).active = (ac.node j).active := by
  rw [node_addEdge]
  split
  · next h => rw [h.1]
  · rfl

theorem parent_addEdge (ac : AhoCorasick) (p a c j : Nat) :
    ((ac.addEdge p a c).node j).parent = (ac.node j).parent := by
  rw [node_addEdge]
  split
  · next h => rw [h.1]
  · rfl

theorem parentLetter_addEdge (ac : AhoCorasick) (p a c j : Nat) :
    ((ac.addEdge p a c).node j).parentLetter = (ac.node j).parentLetter := by
  rw [node_addEdge]
  split
  · next h => rw [h.1]
  · rfl

theorem number_of_nodes_addEdge (ac : AhoCorasick) (p a c : Nat) :
    (ac.addEdge p a c).number_of_nodes = ac.number_of_nodes :=
  number_of_nodes_setNode ..

theorem freeList_addEdge (ac : AhoCorasick) (p a c : Nat) :
    (ac.addEdge p a c).freeList = ac.freeList := rfl

theorem allocate_nil {ac : AhoCorasick} {p a : Nat} (h : ac.freeList = []) :
    ac.allocate p a =
      (⟨ac.nodes ++ [⟨some p, some a, [], false, true⟩], []⟩, ac.number_of_nodes) := by
  rw [allocate, h]
  rfl

theorem allocate_cons {ac : AhoCorasick} {p a f : Nat} {rest : List Nat}
    (h : ac.freeList = f :: rest) :
    ac.allocate p a =
      (⟨ac.nodes.set f ⟨some p, some a, [], false, true⟩, rest⟩, f) := by
  rw [allocate, h]

theorem node_append_lt {ac : AhoCorasick} {j : Nat} (v : Node) (fl : List Nat)
    (h : j < ac.number_of_nodes) :
    (AhoCorasick.mk (ac.nodes ++ [v]) fl).node j = ac.node j := by
  simp only [node]
  exact List.getD_append _ _ _ _ h

theorem node_append_self (ac : AhoCorasick) (v : Node) (fl : List Nat) :
    (AhoCorasick.mk (ac.nodes ++ [v]) fl).node ac.number_of_nodes = v := by
  simp only [node, List.getD, number_of_nodes]
  rw [List.get?_concat_length]
  rfl

/-! ### The insertion step and the main insertion lemma -/

theorem Extends.refl (ac : AhoCorasick) : Extends ac ac :=
  ⟨fun _ h => h, fun _ _ => ⟨rfl, rfl⟩, fun _ _ _ _ h => h, Nat.le_refl _⟩

theorem Extends.trans {ac1 ac2 ac3 : AhoCorasick}
    (h12 : Extends ac1 ac2) (h23 : Extends ac2 ac3) : Extends ac1 ac3 := by
  obtain ⟨a12, p12, c12, n12⟩ := h12
  obtain ⟨a23, p23, c23, n23⟩ := h23
  refine ⟨fun j h => a23 j (a12 j h), fun j h => ?_, fun p b c hp hc => c23 p b c (a12 p hp) (c12 p b c hp hc), Nat.le_trans n12 n23⟩
  have h2 := a12 j h
  exact ⟨(p23 j h2).1.trans (p12 j h).1, (p23 j h2).2.trans (p12 j h).2⟩

theorem alloc_step {ac : AhoCorasick} {cur a : Nat}
    (hinv : AddInv ac) (hact : ac.isActive cur = true)
    (hnone : ac.childNoChecks cur a = none)
    {ac1 : AhoCorasick} {c : Nat} (halloc : ac.allocate cur a = (ac1, c)) :
    AddInv (ac1.addEdge cur a c) ∧ Extends ac (ac1.addEdge cur a c) ∧
      (ac1.addEdge cur a c).isActive c = true ∧
      (ac1.addEdge cur a c).childNoChecks cur a = some c := by
  obtain ⟨hroot, hfree, hedge⟩ := hinv
  have hcurlt : cur < ac.number_of_nodes := lt_of_isActive hact
  cases hfl : ac.freeList with
  | nil =>
    rw [allocate_nil hfl] at halloc
    cases halloc
    set v : Node := ⟨some cur, some a, [], false, true⟩ with hv
    set A : AhoCorasick := ⟨ac.nodes ++ [v], []⟩ with hA
    set N := ac.number_of_nodes with hN
    have hAN : A.number_of_nodes = N + 1 := by
      simp [hA, hN, number_of_nodes]
    have hN2 : (A.addEdge cur a N).number_of_nodes = N + 1 := by
      rw [number_of_nodes_addEdge, hAN]
    have hnode2 : ∀ j, (A.addEdge cur a N).node j =
        if j = cur
        then { ac.node cur with children := (ac.node cur).children ++ [(a, N)] }
        else if j = N then v else ac.node j := by
      intro j
      rw [node_addEdge, hAN]
      by_cases hjc : j = cur
      · subst hjc
        rw [if_pos ⟨rfl, Nat.lt_succ_of_lt hcurlt⟩, if_pos rfl]
        rw [node_append_lt v [] hcurlt]
      · rw [if_neg (fun hh => hjc hh.1), if_neg hjc]
        by_cases hjN : j = N
        · subst hjN
          rw [if_pos rfl]
          exact node_append_self ac v []
        · rw [if_neg hjN]
          rcases Nat.lt_or_ge j N with hlt | hge
          · exact node_append_lt v [] hlt
          · have hgt : N + 1 ≤ j := Nat.lt_of_le_of_ne hge (fun hh => hjN hh.symm)
            rw [@node_of_le A j (by rw [hAN]; exact hgt), node_of_le hge]
    have hactpres : ∀ j, j ≠ N →
        ((A.addEdge cur a N).node j).active = (ac.node j).active := by
      intro j hjN
      rw [hnode2 j]
      by_cases hjc : j = cur
      · subst hjc; rw [if_pos rfl]
      · rw [if_neg hjc, if_neg hjN]
    have hppres : ∀ j, j ≠ N →
        ((A.addEdge cur a N).node j).parent = (ac.node j).parent ∧
        ((A.addEdge cur a N).node j).parentLetter = (ac.node j).parentLetter := by
      intro j hjN
      rw [hnode2 j]
      by_cases hjc : j = cur
      · subst hjc; rw [if_pos rfl]; exact ⟨rfl, rfl⟩
      · rw [if_neg hjc, if_neg hjN]; exact ⟨rfl, rfl⟩
    have hchild2 : ∀ p, p ≠ cur → p ≠ N →
        ((A.addEdge cur a N).node p).children = (ac.node p).children := by
      intro p h1 h2
      rw [hnode2 p, if_neg h1, if_neg h2]
    have hcurchildren : ((A.addEdge cur a N).node cur).children =
        (ac.node cur).children ++ [(a, N)] := by
      rw [hnode2 cur, if_pos rfl]
    have hactive_of : ∀ j, ac.isActive j = true →
        (A.addEdge cur a N).isActive j = true := by
      intro j hj
      have hjN : j ≠ N := fun hh => absurd (lt_of_isActive hj) (by rw [hh]; exact Nat.lt_irrefl N)
      rw [isActive, hactpres j hjN]
      exact hj
    have hactN : (A.addEdge cur a N).isActive N = true := by
      rw [isActive, hnode2 N]
      have hNc : N ≠ cur := fun hh => absurd hcurlt (by rw [hh]; exact Nat.lt_irrefl cur)
      rw [if_neg hNc, if_pos rfl]
    have hcmono : ∀ p b c', ac.isActive p = true → ac.childNoChecks p b = some c' →
        (A.addEdge cur a N).childNoChecks p b = some c' := by
      intro p b c' hp hc
      by_cases hpc : p = cur
      · subst hpc
        rw [childNoChecks, hcurchildren]
        exact lookupA_append_some hc
      · have hpN : p ≠ N := fun hh => absurd (lt_of_isActive hp) (by rw [hh]; exact Nat.lt_irrefl N)
        rw [childNoChecks, hchild2 p hpc hpN]
        exact hc
    refine ⟨⟨?_, ?_, ?_⟩, ⟨hactive_of, fun j hj => hppres j
        (fun hh => absurd (lt_of_isActive hj) (by rw [hh]; exact Nat.lt_irrefl N)),
      hcmono, by rw [hN2]; exact Nat.le_succ N⟩, hactN, ?_⟩
    · -- RootOk
      have h0N : AhoC.root ≠ N := by
        intro hh
        have h1 : (0 : Nat) < N := hroot.1
        rw [← hh] at h1
        exact Nat.lt_irrefl 0 h1
      refine ⟨by rw [hN2]; exact Nat.succ_pos N, hactive_of AhoC.root hroot.2.1, ?_, ?_⟩
      · rw [(hppres AhoC.root h0N).1]
        exact hroot.2.2.1
      · rw [(hppres AhoC.root h0N).2]
        exact hroot.2.2.2
    · -- FreeOk
      constructor
      · show (List.Nodup ((A.addEdge cur a N).freeList))
        rw [freeList_addEdge]
        exact List.nodup_nil
      · intro g hg
        rw [freeList_addEdge] at hg
        cases hg
    · -- EdgeOk
      intro p hp hpact pr hpr
      by_cases hpc : p = cur
      · subst hpc
        rw [hcurchildren] at hpr
        rcases List.mem_append.mp hpr with hold | hnew
        · have hh := hedge p hcurlt hact pr hold
          have hprN : pr.2 ≠ N := fun hh2 => absurd hh.1 (by rw [hh2]; exact Nat.lt_irrefl N)
          refine ⟨by rw [hN2]; exact Nat.lt_succ_of_lt hh.1, ?_, ?_, ?_⟩
          · rw [isActive, hactpres pr.2 hprN]; exact hh.2.1
          · rw [(hppres pr.2 hprN).1]; exact hh.2.2.1
          · rw [(hppres pr.2 hprN).2]; exact hh.2.2.2
        · have : pr = (a, N) := by simpa using hnew
          subst this
          have hNc : N ≠ p := fun hh => absurd hcurlt (by rw [hh]; exact Nat.lt_irrefl p)
          refine ⟨by rw [hN2]; exact Nat.lt_succ_self N, hactN, ?_, ?_⟩
          · rw [hnode2 N, if_neg hNc, if_pos rfl]
          · rw [hnode2 N, if_neg hNc, if_pos rfl]
      · by_cases hpN : p = N
        · have : ((A.addEdge cur a N).node p).children = [] := by
            rw [hnode2 p, if_neg hpc, if_pos hpN]
          rw [this] at hpr
          cases hpr
        · rw [hchild2 p hpc hpN] at hpr
          have hplt : p < N := by
            rcases Nat.lt_or_ge p N with h | h
            · exact h
            · exfalso
              have : ¬ (ac.isActive p = true) := by
                rw [isActive, node_of_le h]
                exact fun hh => by cases hh
              apply this
              rw [isActive, ← hactpres p hpN]
              exact hpact
          have hpact' : ac.isActive p = true := by
            rw [isActive, ← hactpres p hpN]
            exact hpact
          have hh := hedge p hplt hpact' pr hpr
          have hprN : pr.2 ≠ N := fun hh2 => absurd hh.1 (by rw [hh2]; exact Nat.lt_irrefl N)
          refine ⟨by rw [hN2]; exact Nat.lt_succ_of_lt hh.1, ?_, ?_, ?_⟩
          · rw [isActive, hactpres pr.2 hprN]; exact hh.2.1
          · rw [(hppres pr.2 hprN).1]; exact hh.2.2.1
          · rw [(hppres pr.2 hprN).2]; exact hh.2.2.2
    · -- the fresh edge is present
      rw [childNoChecks, hcurchildren]
      rw [lookupA_append_none hnone]
      simp [lookupA]
  | cons f rest =>
    rw [allocate_cons hfl] at halloc
    injection halloc with h1 h2
    subst h1
    subst h2
    set v : Node := ⟨some cur, some a, [], false, true⟩ with hv
    set N := ac.number_of_nodes with hN
    have hfmem : f ∈ ac.freeList := by rw [hfl]; exact List.mem_cons_self f rest
    have hflt : f < N := (hfree.2 f hfmem).1
    have hfinact : ac.isActive f = false := (hfree.2 f hfmem).2
    have hfcur : f ≠ cur := by
      intro hh
      rw [hh] at hfinact
      rw [hact] at hfinact
      cases hfinact
    have hfnotmem : f ∉ rest := by
      have := hfree.1
      rw [hfl] at this
      exact (List.nodup_cons.mp this).1
    set S : AhoCorasick := ⟨ac.nodes.set f v, rest⟩ with hS
    have hSnode : ∀ j, S.node j = (ac.setNode f v).node j := fun _ => rfl
    have hSN : S.number_of_nodes = N := by
      simp [hS, hN, number_of_nodes]
    have hN2 : (S.addEdge cur a f).number_of_nodes = N := by
      rw [number_of_nodes_addEdge, hSN]
    have hnode2 : ∀ j, (S.addEdge cur a f).node j =
        if j = cur
        then { ac.node cur with children := (ac.node cur).children ++ [(a, f)] }
        else if j = f then v else ac.node j := by
      intro j
      rw [node_addEdge, hSN]
      by_cases hjc : j = cur
      · subst hjc
        rw [if_pos ⟨rfl, hcurlt⟩, if_pos rfl, hSnode, node_setNode,
          if_neg (fun hh => hfcur (hh.1.symm))]
      · rw [if_neg (fun hh => hjc hh.1), if_neg hjc, hSnode, node_setNode]
        by_cases hjf : j = f
        · subst hjf
          rw [if_pos ⟨rfl, hflt⟩, if_pos rfl]
        · rw [if_neg (fun hh => hjf hh.1), if_neg hjf]
    have hactpres : ∀ j, j ≠ f →
        ((S.addEdge cur a f).node j).active = (ac.node j).active := by
      intro j hjf
      rw [hnode2 j]
      by_cases hjc : j = cur
      · subst hjc; rw [if_pos rfl]
      · rw [if_neg hjc, if_neg hjf]
    have hppres : ∀ j, j ≠ f →
        ((S.addEdge cur a f).node j).parent = (ac.node j).parent ∧
        ((S.addEdge cur a f).node j).parentLetter = (ac.node j).parentLetter := by
      intro j hjf
      rw [hnode2 j]
      by_cases hjc : j = cur
      · subst hjc; rw [if_pos rfl]; exact ⟨rfl, rfl⟩
      · rw [if_neg hjc, if_neg hjf]; exact ⟨rfl, rfl⟩
    have hchild2 : ∀ p, p ≠ cur → p ≠ f →
        ((S.addEdge cur a f).node p).children = (ac.node p).children := by
      intro p h1 h2
      rw [hnode2 p, if_neg h1, if_neg h2]
    have hcurchildren : ((S.addEdge cur a f).node cur).children =
        (ac.node cur).children ++ [(a, f)] := by
      rw [hnode2 cur, if_pos rfl]
    have hne_of_active : ∀ j, ac.isActive j = true → j ≠ f := by
      intro j hj hh
      rw [hh, hfinact] at hj
      cases hj
    have hactive_of : ∀ j, ac.isActive j = true →
        (S.addEdge cur a f).isActive j = true := by
      intro j hj
      rw [isActive, hactpres j (hne_of_active j hj)]
      exact hj
    have hactf : (S.addEdge cur a f).isActive f = true := by
      rw [isActive, hnode2 f, if_neg hfcur, if_pos rfl]
    have hcmono : ∀ p b c', ac.isActive p = true → ac.childNoChecks p b = some c' →
        (S.addEdge cur a f).childNoChecks p b = some c' := by
      intro p b c' hp hc
      by_cases hpc : p = cur
      · subst hpc
        rw [childNoChecks, hcurchildren]
        exact lookupA_append_some hc
      · rw [childNoChecks, hchild2 p hpc (hne_of_active p hp)]
        exact hc
    refine ⟨⟨?_, ?_, ?_⟩, ⟨hactive_of, fun j hj => hppres j (hne_of_active j hj),
      hcmono, by rw [hN2]⟩, hactf, ?_⟩
    · -- RootOk
      have h0f : AhoC.root ≠ f := hne_of_active AhoC.root hroot.2.1
      refine ⟨by rw [hN2]; exact hroot.1, hactive_of AhoC.root hroot.2.1, ?_, ?_⟩
      · rw [(hppres AhoC.root h0f).1]; exact hroot.2.2.1
      · rw [(hppres AhoC.root h0f).2]; exact hroot.2.2.2
    · -- FreeOk
      constructor
      · show (List.Nodup ((S.addEdge cur a f).freeList))
        rw [freeList_addEdge]
        have := hfree.1
        rw [hfl] at this
        exact (List.nodup_cons.mp this).2
      · intro g hg
        rw [freeList_addEdge] at hg
        have hgS : g ∈ ac.freeList := by rw [hfl]; exact List.mem_cons_of_mem f hg
        have hgf : g ≠ f := fun hh => hfnotmem (hh ▸ hg)
        have hgcur : g ≠ cur := by
          intro hh
          rw [hh] at hgS
          have := (hfree.2 cur hgS).2
          rw [hact] at this
          cases this
        refine ⟨by rw [hN2]; exact (hfree.2 g hgS).1, ?_⟩
        rw [isActive, hactpres g hgf]
        exact (hfree.2 g hgS).2
    · -- EdgeOk
      intro p hp hpact pr hpr
      by_cases hpc : p = cur
      · subst hpc
        rw [hcurchildren] at hpr
        rcases List.mem_append.mp hpr with hold | hnew
        · have hh := hedge p hcurlt hact pr hold
          have hprf : pr.2 ≠ f := hne_of_active pr.2 hh.2.1
          refine ⟨by rw [hN2]; exact hh.1, ?_, ?_, ?_⟩
          · rw [isActive, hactpres pr.2 hprf]; exact hh.2.1
          · rw [(hppres pr.2 hprf).1]; exact hh.2.2.1
          · rw [(hppres pr.2 hprf).2]; exact hh.2.2.2
        · have : pr = (a, f) := by simpa using hnew
          subst this
          refine ⟨by rw [hN2]; exact hflt, hactf, ?_, ?_⟩
          · rw [hnode2 f, if_neg hfcur, if_pos rfl]
          · rw [hnode2 f, if_neg hfcur, if_pos rfl]
      · by_cases hpf : p = f
        · have : ((S.addEdge cur a f).node p).children = [] := by
            rw [hnode2 p, if_neg hpc, if_pos hpf]
          rw [this] at hpr
          cases hpr
        · rw [hchild2 p hpc hpf] at hpr
          have hpact' : ac.isActive p = true := by
            rw [isActive, ← hactpres p hpf]
            exact hpact
          have hplt : p < N := lt_of_isActive hpact'
          have hh := hedge p hplt hpact' pr hpr
          have hprf : pr.2 ≠ f := hne_of_active pr.2 hh.2.1
          refine ⟨by rw [hN2]; exact hh.1, ?_, ?_, ?_⟩
          · rw [isActive, hactpres pr.2 hprf]; exact hh.2.1
          · rw [(hppres pr.2 hprf).1]; exact hh.2.2.1
          · rw [(hppres pr.2 hprf).2]; exact hh.2.2.2
    · -- the fresh edge is present
      rw [childNoChecks, hcurchildren]
      rw [lookupA_append_none hnone]
      simp [lookupA]

theorem isActive_setTerminal (ac : AhoCorasick) (i : Nat) (b : Bool) (j : Nat) :
    (ac.setTerminal i b).isActive j = ac.isActive j := by
  rw [isActive, isActive, active_setTerminal]

theorem AddInv_setTerminal {ac : AhoCorasick} (h : AddInv ac) (i : Nat) (b : Bool) :
    AddInv (ac.setTerminal i b) := by
  obtain ⟨hroot, hfree, hedge⟩ := h
  refine ⟨⟨?_, ?_, ?_, ?_⟩, ⟨?_, ?_⟩, ?_⟩
  · rw [number_of_nodes_setTerminal]; exact hroot.1
  · rw [isActive_setTerminal]; exact hroot.2.1
  · rw [parent_setTerminal]; exact hroot.2.2.1
  · rw [parentLetter_setTerminal]; exact hroot.2.2.2
  · show ((ac.setTerminal i b).freeList).Nodup
    rw [freeList_setTerminal]; exact hfree.1
  · intro g hg
    rw [freeList_setTerminal] at hg
    refine ⟨?_, ?_⟩
    · rw [number_of_nodes_setTerminal]; exact (hfree.2 g hg).1
    · rw [isActive_setTerminal]; exact (hfree.2 g hg).2
  · intro p hp hpact pr hpr
    rw [number_of_nodes_setTerminal] at hp
    rw [isActive_setTerminal] at hpact
    rw [children_setTerminal] at hpr
    have hh := hedge p hp hpact pr hpr
    refine ⟨?_, ?_, ?_, ?_⟩
    · rw [number_of_nodes_setTerminal]; exact hh.1
    · rw [isActive_setTerminal]; exact hh.2.1
    · rw [parent_setTerminal]; exact hh.2.2.1
    · rw [parentLetter_setTerminal]; exact hh.2.2.2

theorem Extends_setTerminal (ac : AhoCorasick) (i : Nat) (b : Bool) :
    Extends ac (ac.setTerminal i b) := by
  refine ⟨?_, ?_, ?_, ?_⟩
  · intro j hj; rw [isActive_setTerminal]; exact hj
  · intro j _; rw [parent_setTerminal, parentLetter_setTerminal]; exact ⟨rfl, rfl⟩
  · intro p b' c _ hc; rw [childNoChecks_setTerminal]; exact hc
  · rw [number_of_nodes_setTerminal]

theorem addWordFrom_spec : ∀ (w : List Nat) (ac : AhoCorasick) (cur : Nat),
    AddInv ac → ac.isActive cur = true →
    AddInv (ac.addWordFrom cur w).1 ∧ Extends ac (ac.addWordFrom cur w).1 ∧
      (ac.addWordFrom cur w).1.traverseTrie cur w = some (ac.addWordFrom cur w).2 ∧
      ((ac.addWordFrom cur w).1.node (ac.addWordFrom cur w).2).terminal = true ∧
      (ac.addWordFrom cur w).1.isActive (ac.addWordFrom cur w).2 = true := by
  intro w
  induction w with
  | nil =>
    intro ac cur hinv hact
    simp only [addWordFrom]
    refine ⟨AddInv_setTerminal hinv cur true, Extends_setTerminal ac cur true,
      rfl, ?_, ?_⟩
    · exact terminal_setTerminal_self true (lt_of_isActive hact)
    · rw [isActive_setTerminal]; exact hact
  | cons a w ih =>
    intro ac cur hinv hact
    cases hchild : ac.childNoChecks cur a with
    | some c =>
      have hred : ac.addWordFrom cur (a :: w) = ac.addWordFrom c w := by
        rw [addWordFrom, hchild]
      have hcact : ac.isActive c = true := by
        have hmem := lookupA_mem hchild
        exact (hinv.2.2 cur (lt_of_isActive hact) hact (a, c) hmem).2.1
      obtain ⟨h1, h2, h3, h4, h5⟩ := ih ac c hinv hcact
      rw [hred]
      refine ⟨h1, h2, ?_, h4, h5⟩
      rw [traverseTrie]
      have hc2 : (ac.addWordFrom c w).1.childNoChecks cur a = some c :=
        h2.2.2.1 cur a c hact hchild
      rw [hc2]
      exact h3
    | none =>
      cases halloc : ac.allocate cur a with
      | mk ac1 c =>
        have hred : ac.addWordFrom cur (a :: w)
            = (ac1.addEdge cur a c).addWordFrom c w := by
          rw [addWordFrom, hchild, halloc]
        obtain ⟨hinv2, hext2, hact2, hch2⟩ := alloc_step hinv hact hchild halloc
        obtain ⟨h1, h2, h3, h4, h5⟩ := ih (ac1.addEdge cur a c) c hinv2 hact2
        rw [hred]
        refine ⟨h1, Extends.trans hext2 h2, ?_, h4, h5⟩
        rw [traverseTrie]
        have hcurstill : ((ac1.addEdge cur a c).addWordFrom c w).1.childNoChecks cur a
            = some c := h2.2.2.1 cur a c (hext2.1 cur hact) hch2
        rw [hcurstill]
        exact h3

theorem add_word_spec {ac : AhoCorasick} (hinv : AddInv ac) (w : List Nat) :
    AddInv (ac.add_word w).1 ∧ Extends ac (ac.add_word w).1 ∧
      (ac.add_word w).1.traverseTrie root w = some (ac.add_word w).2 ∧
      ((ac.add_word w).1.node (ac.add_word w).2).terminal = true ∧
      (ac.add_word w).1.isActive (ac.add_word w).2 = true :=
  addWordFrom_spec w ac root hinv hinv.1.2.1

/-! ### Fuel monotonicity of the parent walks, and the parent chain -/

theorem sigF_mono {ac : AhoCorasick} :
    ∀ {f i : Nat} {s : List Nat}, ac.sigF f i = some s →
      ∀ {g : Nat}, f ≤ g → ac.sigF g i = some s := by
  intro f
  induction f with
  | zero => intro i s h; cases h
  | succ f ih =>
    intro i s h g hfg
    obtain ⟨g', rfl⟩ : ∃ g', g = g' + 1 := ⟨g - 1, by omega⟩
    rw [sigF] at h
    rw [sigF]
    by_cases hi : i = root
    · rw [if_pos hi] at h ⊢; exact h
    · rw [if_neg hi] at h ⊢
      cases hp : (ac.node i).parent with
      | none => rw [hp] at h; simp at h
      | some p =>
        rw [hp] at h
        simp only [Option.some_bind] at h ⊢
        cases hl : (ac.node i).parentLetter with
        | none => rw [hl] at h; simp at h
        | some a =>
          rw [hl] at h
          simp only [Option.some_bind] at h ⊢
          cases hsp : ac.sigF f p with
          | none => rw [hsp] at h; simp at h
          | some s' =>
            rw [hsp] at h
            rw [ih hsp (by omega)]
            exact h

theorem sigF_unique {ac : AhoCorasick} {f g i : Nat} {s t : List Nat}
    (hs : ac.sigF f i = some s) (ht : ac.sigF g i = some t) : s = t := by
  rcases Nat.le_total f g with h | h
  · have h2 := sigF_mono hs h
    rw [h2] at ht
    injection ht
  · have h2 := sigF_mono ht h
    rw [h2] at hs
    injection hs with h3
    exact h3.symm

theorem hF_mono {ac : AhoCorasick} :
    ∀ {f i h : Nat}, ac.hF f i = some h →
      ∀ {g : Nat}, f ≤ g → ac.hF g i = some h := by
  intro f
  induction f with
  | zero => intro i h hh; cases hh
  | succ f ih =>
    intro i h hh g hfg
    obtain ⟨g', rfl⟩ : ∃ g', g = g' + 1 := ⟨g - 1, by omega⟩
    rw [hF] at hh
    rw [hF]
    by_cases hi : i = root
    · rw [if_pos hi] at hh ⊢; exact hh
    · rw [if_neg hi] at hh ⊢
      cases hp : (ac.node i).parent with
      | none => rw [hp] at hh; simp at hh
      | some p =>
        rw [hp] at hh
        simp only [Option.some_bind] at hh ⊢
        cases hsp : ac.hF f p with
        | none => rw [hsp] at hh; simp at hh
        | some h' =>
          rw [hsp] at hh
          rw [ih hsp (by omega)]
          exact hh

theorem hF_unique {ac : AhoCorasick} {f g i : Nat} {h h' : Nat}
    (hs : ac.hF f i = some h) (ht : ac.hF g i = some h') : h = h' := by
  rcases Nat.le_total f g with hle | hle
  · have h2 := hF_mono hs hle
    rw [h2] at ht
    injection ht
  · have h2 := hF_mono ht hle
    rw [h2] at hs
    injection hs with h3
    exact h3.symm

theorem chainF_mono {ac : AhoCorasick} :
    ∀ {f i : Nat} {l : List Nat}, chainF ac f i = some l →
      ∀ {g : Nat}, f ≤ g → chainF ac g i = some l := by
  intro f
  induction f with
  | zero => intro i l h; cases h
  | succ f ih =>
    intro i l h g hfg
    obtain ⟨g', rfl⟩ : ∃ g', g = g' + 1 := ⟨g - 1, by omega⟩
    rw [chainF] at h
    rw [chainF]
    by_cases hi : i = root
    · rw [if_pos hi] at h ⊢; exact h
    · rw [if_neg hi] at h ⊢
      cases hp : (ac.node i).parent with
      | none => rw [hp] at h; simp at h
      | some p =>
        rw [hp] at h
        simp only [Option.some_bind] at h ⊢
        cases hsp : chainF ac f p with
        | none => rw [hsp] at h; simp at h
        | some m =>
          rw [hsp] at h
          rw [ih hsp (by omega)]
          exact h

theorem chainF_unique {ac : AhoCorasick} {f g i : Nat} {l m : List Nat}
    (hs : chainF ac f i = some l) (ht : chainF ac g i = some m) : l = m := by
  rcases Nat.le_total f g with h | h
  · have h2 := chainF_mono hs h
    rw [h2] at ht
    injection ht
  · have h2 := chainF_mono ht h
    rw [h2] at hs
    injection hs with h3
    exact h3.symm

theorem chainF_of_sigF {ac : AhoCorasick} :
    ∀ {f i : Nat} {s : List Nat}, ac.sigF f i = some s →
      ∃ l, chainF ac f i = some l ∧ l.length = s.length + 1 := by
  intro f
  induction f with
  | zero => intro i s h; cases h
  | succ f ih =>
    intro i s h
    rw [sigF] at h
    rw [chainF]
    by_cases hi : i = root
    · rw [if_pos hi] at h
      rw [if_pos hi]
      injection h with h2
      subst h2
      exact ⟨[root], rfl, rfl⟩
    · rw [if_neg hi] at h
      rw [if_neg hi]
      cases hp : (ac.node i).parent with
      | none => rw [hp] at h; simp at h
      | some p =>
        rw [hp] at h
        simp only [Option.some_bind] at h ⊢
        cases hl : (ac.node i).parentLetter with
        | none => rw [hl] at h; simp at h
        | some a =>
          rw [hl] at h
          simp only [Option.some_bind] at h
          cases hsp : ac.sigF f p with
          | none => rw [hsp] at h; simp at h
          | some s' =>
            rw [hsp] at h
            obtain ⟨l', hl', hlen⟩ := ih hsp
            rw [hl']
            simp only [Option.map_some'] at h ⊢
            refine ⟨i :: l', rfl, ?_⟩
            injection h with h2
            subst h2
            simp [hlen]

theorem chainF_mem_suffix {ac : AhoCorasick} :
    ∀ {f i : Nat} {l : List Nat}, chainF ac f i = some l →
      ∀ x ∈ l, ∃ g, g ≤ f ∧ ∃ m, chainF ac g x = some m ∧ m <:+ l := by
  intro f
  induction f with
  | zero => intro i l h; cases h
  | succ f ih =>
    intro i l h x hx
    have hself : chainF ac (f + 1) i = some l := h
    rw [chainF] at h
    by_cases hi : i = root
    · rw [if_pos hi] at h
      injection h with h2
      subst h2
      rcases List.mem_singleton.mp hx with rfl
      refine ⟨f + 1, Nat.le_refl _, [root], ?_, List.suffix_refl _⟩
      rw [hi] at hself
      exact hself
    · rw [if_neg hi] at h
      cases hp : (ac.node i).parent with
      | none => rw [hp] at h; simp at h
      | some p =>
        rw [hp] at h
        simp only [Option.some_bind] at h
        cases hsp : chainF ac f p with
        | none => rw [hsp] at h; simp at h
        | some m =>
          rw [hsp] at h
          simp only [Option.map_some'] at h
          injection h with h2
          subst h2
          rcases List.mem_cons.mp hx with rfl | hxm
          · exact ⟨f + 1, Nat.le_refl _, x :: m, hself, List.suffix_refl _⟩
          · obtain ⟨g, hg, m', hm', hsuf⟩ := ih hsp x hxm
            exact ⟨g, Nat.le_succ_of_le hg, m', hm',
              hsuf.trans (List.suffix_cons i m)⟩

theorem chainF_nodup {ac : AhoCorasick} :
    ∀ {f i : Nat} {l : List Nat}, chainF ac f i = some l → l.Nodup := by
  intro f
  induction f with
  | zero => intro i l h; cases h
  | succ f ih =>
    intro i l h
    have hself : chainF ac (f + 1) i = some l := h
    rw [chainF] at h
    by_cases hi : i = root
    · rw [if_pos hi] at h
      injection h with h2
      subst h2
      exact List.nodup_singleton _
    · rw [if_neg hi] at h
      cases hp : (ac.node i).parent with
      | none => rw [hp] at h; simp at h
      | some p =>
        rw [hp] at h
        simp only [Option.some_bind] at h
        cases hsp : chainF ac f p with
        | none => rw [hsp] at h; simp at h
        | some m =>
          rw [hsp] at h
          simp only [Option.map_some'] at h
          injection h with h2
          subst h2
          rw [List.nodup_cons]
          refine ⟨?_, ih hsp⟩
          intro hmem
          obtain ⟨g, _, m', hm', hsuf⟩ := chainF_mem_suffix hsp i hmem
          have heq : m' = i :: m := chainF_unique hm' hself
          subst heq
          have hlen := List.IsSuffix.length_le hsuf
          simp at hlen

theorem chainF_elements_lt {ac : AhoCorasick} :
    ∀ {f i : Nat} {l : List Nat}, chainF ac f i = some l →
      ∀ x ∈ l, x = root ∨ x < ac.number_of_nodes := by
  intro f
  induction f with
  | zero => intro i l h; cases h
  | succ f ih =>
    intro i l h x hx
    rw [chainF] at h
    by_cases hi : i = root
    · rw [if_pos hi] at h
      injection h with h2
      subst h2
      rcases List.mem_singleton.mp hx with rfl
      exact Or.inl rfl
    · rw [if_neg hi] at h
      cases hp : (ac.node i).parent with
      | none => rw [hp] at h; simp at h
      | some p =>
        rw [hp] at h
        simp only [Option.some_bind] at h
        cases hsp : chainF ac f p with
        | none => rw [hsp] at h; simp at h
        | some m =>
          rw [hsp] at h
          simp only [Option.map_some'] at h
          injection h with h2
          subst h2
          rcases List.mem_cons.mp hx with rfl | hxm
          · right
            by_contra hge
            have hbl : ac.node x = blank := node_of_le (Nat.le_of_not_lt hge)
            rw [hbl] at hp
            cases hp
          · exact ih hsp x hxm

theorem nodup_lt_length_le {n : Nat} :
    ∀ {l : List Nat}, l.Nodup → (∀ x ∈ l, x < n) → l.length ≤ n := by
  intro l hnd hlt
  have hsub : l.toFinset ⊆ Finset.range n := by
    intro x hx
    rw [Finset.mem_range]
    exact hlt x (List.mem_toFinset.mp hx)
  have hcard := Finset.card_le_card hsub
  rw [Finset.card_range] at hcard
  rw [List.toFinset_card_of_nodup hnd] at hcard
  exact hcard

theorem sigF_length_lt {ac : AhoCorasick} {f i : Nat} {s : List Nat}
    (hroot : 0 < ac.number_of_nodes) (h : ac.sigF f i = some s) :
    s.length < ac.number_of_nodes := by
  obtain ⟨l, hl, hlen⟩ := chainF_of_sigF h
  have hnd := chainF_nodup hl
  have hel := chainF_elements_lt hl
  have hlt : ∀ x ∈ l, x < ac.number_of_nodes := by
    intro x hx
    rcases hel x hx with rfl | h2
    · exact hroot
    · exact h2
  have hle := nodup_lt_length_le hnd hlt
  omega

/-! ### Signatures and heights of active nodes in a well-formed automaton -/

theorem parentOkAt_spec {ac : AhoCorasick} {c : Nat} (h : parentOkAt ac c = true) :
    ∃ p a, (ac.node c).parent = some p ∧ (ac.node c).parentLetter = some a ∧
      p < ac.number_of_nodes ∧ ac.isActive p = true ∧
      (a, c) ∈ (ac.node p).children := by
  rw [parentOkAt] at h
  cases hp : (ac.node c).parent with
  | none => rw [hp] at h; simp at h
  | some p =>
    rw [hp] at h
    simp only [Option.some_bind] at h
    cases hl : (ac.node c).parentLetter with
    | none => rw [hl] at h; simp at h
    | some a =>
      rw [hl] at h
      simp only [Option.map_some', Option.getD_some, Bool.and_eq_true,
        decide_eq_true_eq] at h
      exact ⟨p, a, rfl, rfl, h.1.1, h.1.2, h.2⟩

theorem sigF_root (ac : AhoCorasick) (f : Nat) : ac.sigF (f + 1) root = some [] := by
  rw [sigF, if_pos rfl]

theorem hF_root (ac : AhoCorasick) (f : Nat) : ac.hF (f + 1) root = some 0 := by
  rw [hF, if_pos rfl]

theorem sigOf_root (ac : AhoCorasick) : ac.sigOf root = [] := by
  rw [sigOf, sigF_root]
  rfl

theorem heightOf_root (ac : AhoCorasick) : ac.heightOf root = 0 := by
  rw [heightOf, hF_root]
  rfl

theorem active_sigF {ac : AhoCorasick} (hpo : ParentOk ac) :
    ∀ {f c h : Nat}, ac.isActive c = true → ac.hF f c = some h →
      ∃ s, ac.sigF f c = some s ∧ s.length = h := by
  intro f
  induction f with
  | zero => intro c h _ hh; cases hh
  | succ f ih =>
    intro c h hact hh
    rw [hF] at hh
    rw [sigF]
    by_cases hc : c = root
    · rw [if_pos hc] at hh
      rw [if_pos hc]
      injection hh with h2
      exact ⟨[], rfl, by simpa using h2⟩
    · rw [if_neg hc] at hh
      rw [if_neg hc]
      obtain ⟨p, a, hp, hl, _, hpact, _⟩ :=
        parentOkAt_spec (hpo c (lt_of_isActive hact) hact hc)
      rw [hp] at hh
      simp only [Option.some_bind] at hh
      rw [hp, hl]
      simp only [Option.some_bind]
      cases hhf : ac.hF f p with
      | none => rw [hhf] at hh; simp at hh
      | some h' =>
        rw [hhf] at hh
        simp only [Option.map_some'] at hh
        injection hh with h2
        obtain ⟨s', hs', hlen⟩ := ih hpact hhf
        rw [hs']
        simp only [Option.map_some']
        refine ⟨s' ++ [a], rfl, ?_⟩
        simp [hlen, ← h2]

theorem sig_height {ac : AhoCorasick} (hwf : WF ac) {c : Nat}
    (hc : ac.isActive c = true) :
    ac.sigF (ac.number_of_nodes + 1) c = some (ac.sigOf c) ∧
      ac.hF (ac.number_of_nodes + 1) c = some (ac.heightOf c) ∧
      (ac.sigOf c).length = ac.heightOf c := by
  obtain ⟨_, _, hpo, hho⟩ := hwf
  have hs := hho c (lt_of_isActive hc) hc
  obtain ⟨h, hh⟩ := Option.isSome_iff_exists.mp hs
  have hh1 : ac.hF (ac.number_of_nodes + 1) c = some h := hF_mono hh (Nat.le_succ _)
  obtain ⟨s, hsf, hlen⟩ := active_sigF hpo hc hh1
  have e1 : ac.sigOf c = s := by rw [sigOf, hsf]; rfl
  have e2 : ac.heightOf c = h := by rw [heightOf, hh1]; rfl
  rw [e1, e2]
  exact ⟨hsf, hh1, hlen⟩

theorem heightOf_lt {ac : AhoCorasick} (hwf : WF ac) {c : Nat}
    (hc : ac.isActive c = true) : ac.heightOf c < ac.number_of_nodes := by
  obtain ⟨hsf, _, hlen⟩ := sig_height hwf hc
  have := sigF_length_lt hwf.1.1.1 hsf
  omega

theorem sig_parent {ac : AhoCorasick} (hwf : WF ac) {c p a : Nat}
    (hc : ac.isActive c = true) (hne : c ≠ root)
    (hp : (ac.node c).parent = some p) (hl : (ac.node c).parentLetter = some a) :
    ac.isActive p = true ∧ ac.sigOf c = ac.sigOf p ++ [a] ∧
      ac.heightOf c = ac.heightOf p + 1 := by
  obtain ⟨p', a', hp', hl', _, hpact, _⟩ :=
    parentOkAt_spec (hwf.2.2.1 c (lt_of_isActive hc) hc hne)
  rw [hp] at hp'
  injection hp' with hpe
  subst hpe
  rw [hl] at hl'
  injection hl' with hle
  subst hle
  obtain ⟨hsf, hhf, _⟩ := sig_height hwf hc
  obtain ⟨hsfp, hhfp, _⟩ := sig_height hwf hpact
  rw [sigF, if_neg hne, hp] at hsf
  simp only [Option.some_bind] at hsf
  rw [hl] at hsf
  simp only [Option.some_bind] at hsf
  rw [hF, if_neg hne, hp] at hhf
  simp only [Option.some_bind] at hhf
  cases hq : ac.sigF ac.number_of_nodes p with
  | none => rw [hq] at hsf; simp at hsf
  | some t =>
    rw [hq] at hsf
    simp only [Option.map_some'] at hsf
    cases hqh : ac.hF ac.number_of_nodes p with
    | none => rw [hqh] at hhf; simp at hhf
    | some n =>
      rw [hqh] at hhf
      simp only [Option.map_some'] at hhf
      have ht : t = ac.sigOf p := sigF_unique (sigF_mono hq (Nat.le_succ _)) hsfp
      have hn : n = ac.heightOf p := hF_unique (hF_mono hqh (Nat.le_succ _)) hhfp
      injection hsf with e1
      injection hhf with e2
      refine ⟨hpact, ?_, ?_⟩
      · rw [← e1, ht]
      · rw [← e2, hn]

theorem traverseTrie_facts {ac : AhoCorasick} (hwf : WF ac) :
    ∀ (w : List Nat) (q r : Nat), ac.isActive q = true →
      ac.traverseTrie q w = some r →
      ac.isActive r = true ∧ ac.sigOf r = ac.sigOf q ++ w ∧
        ac.heightOf r = ac.heightOf q + w.length := by
  intro w
  induction w with
  | nil =>
    intro q r hq htr
    rw [traverseTrie] at htr
    injection htr with h2
    subst h2
    simp [hq]
  | cons a w ih =>
    intro q r hq htr
    rw [traverseTrie] at htr
    cases hc : ac.childNoChecks q a with
    | none => rw [hc] at htr; cases htr
    | some c =>
      rw [hc] at htr
      have hmem := lookupA_mem hc
      have hedge := hwf.1.2.2 q (lt_of_isActive hq) hq (a, c) hmem
      have hcact : ac.isActive c = true := hedge.2.1
      have hcne : c ≠ root := by
        intro hh
        have hpar := hedge.2.2.1
        rw [hh] at hpar
        rw [hwf.1.1.2.2.1] at hpar
        cases hpar
      obtain ⟨_, hsig, hht⟩ := sig_parent hwf hcact hcne hedge.2.2.1 hedge.2.2.2
      obtain ⟨hract, hrsig, hrht⟩ := ih c r hcact htr
      refine ⟨hract, ?_, ?_⟩
      · rw [hrsig, hsig]
        simp
      · rw [hrht, hht]
        simp [Nat.add_comm, Nat.add_assoc, Nat.add_left_comm]

theorem trT_sigOf {ac : AhoCorasick} (hwf : WF ac) :
    ∀ (h : Nat) (c : Nat), ac.isActive c = true → ac.heightOf c = h →
      ac.traverseTrie root (ac.sigOf c) = some c := by
  intro h
  induction h using Nat.strong_induction_on with
  | _ h ih =>
    intro c hc hh
    by_cases hcr : c = root
    · subst hcr
      rw [sigOf_root]
      rfl
    · obtain ⟨p, a, hp, hl, _, hpact, hmem⟩ :=
        parentOkAt_spec (hwf.2.2.1 c (lt_of_isActive hc) hc hcr)
      obtain ⟨_, hsig, hht⟩ := sig_parent hwf hc hcr hp hl
      have hplt : ac.heightOf p < h := by omega
      have hihp := ih (ac.heightOf p) hplt p hpact rfl
      rw [hsig, traverseTrie_append, hihp]
      simp only [Option.some_bind]
      rw [traverseTrie]
      have hnd := hwf.2.1 p (lt_of_isActive hpact) hpact
      have hlook : ac.childNoChecks p a = some c := lookupA_of_mem_nodup hnd hmem
      rw [hlook]
      rfl

theorem sig_injective {ac : AhoCorasick} (hwf : WF ac) {c c' : Nat}
    (hc : ac.isActive c = true) (hc' : ac.isActive c' = true)
    (h : ac.sigOf c = ac.sigOf c') : c = c' := by
  have h1 := trT_sigOf hwf (ac.heightOf c) c hc rfl
  have h2 := trT_sigOf hwf (ac.heightOf c') c' hc' rfl
  rw [h] at h1
  rw [h1] at h2
  injection h2

/-! ### Suffix combinatorics and the longest trie suffix -/

theorem suffix_of_suffix_length_le {s t u : List Nat}
    (hs : s <:+ u) (ht : t <:+ u) (hlen : s.length ≤ t.length) : s <:+ t := by
  obtain ⟨x, hx⟩ := hs
  obtain ⟨y, hy⟩ := ht
  have h1 : u.drop x.length = s := by
    rw [← hx]
    exact List.drop_left x s
  have hxlen : x.length = y.length + (t.length - s.length) := by
    have e1 : x.length + s.length = u.length := by rw [← hx]; simp
    have e2 : y.length + t.length = u.length := by rw [← hy]; simp
    omega
  have e3 : t.drop (t.length - s.length) = (y ++ t).drop x.length := by
    have e4 : ((y ++ t).drop y.length).drop (t.length - s.length)
        = (y ++ t).drop x.length := by
      rw [List.drop_drop, hxlen, Nat.add_comm]
    rw [← e4, List.drop_left]
  rw [← hy] at h1
  have h2 : t.drop (t.length - s.length) = s := by
    rw [e3]
    exact h1
  rw [← h2]
  exact List.drop_suffix _ _

theorem suffix_eq_of_length {s t : List Nat} (hs : s <:+ t)
    (hlen : t.length ≤ s.length) : s = t := by
  obtain ⟨x, hx⟩ := hs
  have : x.length + s.length = t.length := by
    rw [← hx]; simp
  have hx0 : x = [] := by
    cases x with
    | nil => rfl
    | cons b xs => simp at this; omega
  rw [hx0] at hx
  simpa using hx

theorem inTrie_nil (ac : AhoCorasick) : ac.inTrie [] = true := rfl

theorem inTrie_of_append {ac : AhoCorasick} {u v : List Nat}
    (h : ac.inTrie (u ++ v) = true) : ac.inTrie u = true := by
  rw [inTrie, traverseTrie_append] at h
  rw [inTrie]
  cases hu : ac.traverseTrie root u with
  | none => rw [hu] at h; cases h
  | some r => rfl

theorem lsuf_suffix (ac : AhoCorasick) : ∀ u, lsuf ac u <:+ u := by
  intro u
  induction u with
  | nil => exact List.suffix_refl _
  | cons a u ih =>
    rw [lsuf]
    split
    · exact List.suffix_refl _
    · exact ih.trans (List.suffix_cons a u)

theorem lsuf_inTrie (ac : AhoCorasick) : ∀ u, ac.inTrie (lsuf ac u) = true := by
  intro u
  induction u with
  | nil => rfl
  | cons a u ih =>
    rw [lsuf]
    split
    · next h => exact h
    · exact ih

theorem lsuf_max {ac : AhoCorasick} : ∀ {u s : List Nat}, s <:+ u →
    ac.inTrie s = true → s <:+ lsuf ac u := by
  intro u
  induction u with
  | nil =>
    intro s hs _
    rw [lsuf]
    exact hs
  | cons a u ih =>
    intro s hs hin
    rw [lsuf]
    split
    · exact hs
    · next hnot =>
      rcases List.suffix_cons_iff.mp hs with rfl | hsu
      · exact absurd hin (by simpa using hnot)
      · exact ih hsu hin

theorem lsuf_of_inTrie {ac : AhoCorasick} {u : List Nat}
    (h : ac.inTrie u = true) : lsuf ac u = u := by
  cases u with
  | nil => rfl
  | cons a u =>
    rw [lsuf, if_pos h]

theorem lsuf_isLongest (ac : AhoCorasick) (u : List Nat) :
    IsLongestTrieSuffix ac u (lsuf ac u) := by
  refine ⟨lsuf_suffix ac u, lsuf_inTrie ac u, ?_⟩
  intro t ht hin
  exact List.IsSuffix.length_le (lsuf_max ht hin)

theorem suffix_concat_cases {x u : List Nat} {a : Nat} (h : x <:+ u ++ [a]) :
    x = [] ∨ ∃ s, x = s ++ [a] ∧ s <:+ u := by
  obtain ⟨t, ht⟩ := h
  rcases List.eq_nil_or_concat x with rfl | ⟨s, b, hsb⟩
  · exact Or.inl rfl
  · right
    rw [List.concat_eq_append] at hsb
    subst hsb
    rw [← List.append_assoc] at ht
    have hinj := List.append_inj' ht (by rfl)
    injection hinj.2 with hba
    subst hba
    exact ⟨s, rfl, t, hinj.1⟩

theorem suffix_append_singleton {s v : List Nat} (a : Nat) (h : s <:+ v) :
    s ++ [a] <:+ v ++ [a] := by
  obtain ⟨t, ht⟩ := h
  exact ⟨t, by rw [← List.append_assoc, ht]⟩

theorem lsuf_congr_step {ac : AhoCorasick} {u v : List Nat} (a : Nat)
    (hv : v <:+ u)
    (hmax : ∀ s, s <:+ u → ac.inTrie s = true → ac.inTrie (s ++ [a]) = true →
      s <:+ v) :
    lsuf ac (u ++ [a]) = lsuf ac (v ++ [a]) := by
  have hx_vsuf : lsuf ac (u ++ [a]) <:+ v ++ [a] := by
    rcases suffix_concat_cases (lsuf_suffix ac (u ++ [a])) with hnil | ⟨s, hxs, hsu⟩
    · rw [hnil]; exact List.nil_suffix
    · have hin := lsuf_inTrie ac (u ++ [a])
      rw [hxs] at hin ⊢
      have hs_in : ac.inTrie s = true := inTrie_of_append hin
      exact suffix_append_singleton a (hmax s hsu hs_in hin)
  have hle1 : (lsuf ac (u ++ [a])).length ≤ (lsuf ac (v ++ [a])).length :=
    (lsuf_isLongest ac (v ++ [a])).2.2 _ hx_vsuf (lsuf_inTrie ac (u ++ [a]))
  have hv_usuf : lsuf ac (v ++ [a]) <:+ u ++ [a] :=
    (lsuf_suffix ac (v ++ [a])).trans (suffix_append_singleton a hv)
  have hle2 : (lsuf ac (v ++ [a])).length ≤ (lsuf ac (u ++ [a])).length :=
    (lsuf_isLongest ac (u ++ [a])).2.2 _ hv_usuf (lsuf_inTrie ac (v ++ [a]))
  have hcomp := suffix_of_suffix_length_le hx_vsuf (lsuf_suffix ac (v ++ [a])) hle1
  exact suffix_eq_of_length hcomp hle2

/-! ### Traversal along existing edges, and insertion of present words -/

theorem travFuel_child {ac : AhoCorasick} {q a c : Nat}
    (hc : ac.childNoChecks q a = some c) :
    ∀ f, ac.travFuel f q a = c := by
  intro f
  cases f with
  | zero => rw [travFuel, hc]; rfl
  | succ f => rw [travFuel, hc]; rfl

theorem foldl_trav_of_trT {ac : AhoCorasick} (F : Nat) :
    ∀ (w : List Nat) (q r : Nat), ac.traverseTrie q w = some r →
      w.foldl (fun cur a => ac.travFuel F cur a) q = r := by
  intro w
  induction w with
  | nil =>
    intro q r h
    rw [traverseTrie] at h
    exact Option.some.inj h
  | cons a w ih =>
    intro q r h
    rw [traverseTrie] at h
    cases hc : ac.childNoChecks q a with
    | none => rw [hc] at h; cases h
    | some c =>
      rw [hc] at h
      rw [List.foldl_cons, travFuel_child hc F]
      exact ih c r h

theorem trT_sig_addinv {ac : AhoCorasick} (hinv : AddInv ac) :
    ∀ (w : List Nat) (q r : Nat) (s : List Nat) (f : Nat),
      ac.traverseTrie q w = some r → ac.isActive q = true →
      ac.sigF f q = some s → ac.sigF (f + w.length) r = some (s ++ w) := by
  intro w
  induction w with
  | nil =>
    intro q r s f htr _ hs
    rw [traverseTrie] at htr
    injection htr with h2
    subst h2
    simpa using hs
  | cons a w ih =>
    intro q r s f htr hq hs
    rw [traverseTrie] at htr
    cases hc : ac.childNoChecks q a with
    | none => rw [hc] at htr; cases htr
    | some c =>
      rw [hc] at htr
      have hmem := lookupA_mem hc
      have hedge := hinv.2.2 q (lt_of_isActive hq) hq (a, c) hmem
      have hcact : ac.isActive c = true := hedge.2.1
      have hcne : c ≠ root := by
        intro hh
        have hpar := hedge.2.2.1
        rw [hh, hinv.1.2.2.1] at hpar
        cases hpar
      have hstep : ac.sigF (f + 1) c = some (s ++ [a]) := by
        rw [sigF, if_neg hcne, hedge.2.2.1]
        simp only [Option.some_bind]
        rw [hedge.2.2.2]
        simp only [Option.some_bind]
        rw [hs]
        rfl
      have := ih c r (s ++ [a]) (f + 1) htr hcact hstep
      have harr : f + 1 + w.length = f + (a :: w).length := by
        simp only [List.length_cons]
        omega
      rw [harr] at this
      simpa using this

theorem setTerminal_noop {ac : AhoCorasick} {n : Nat}
    (hterm : (ac.node n).terminal = true) : ac.setTerminal n true = ac := by
  rw [setTerminal]
  apply setNode_self
  cases hx : ac.node n with
  | mk pp pl ch tm av =>
    rw [hx] at hterm
    simp only at hterm
    rw [hterm]

theorem addWordFrom_of_trT :
    ∀ (w : List Nat) (ac : AhoCorasick) (cur n : Nat),
      ac.traverseTrie cur w = some n → (ac.node n).terminal = true →
      ac.addWordFrom cur w = (ac, n) := by
  intro w
  induction w with
  | nil =>
    intro ac cur n htr hterm
    rw [traverseTrie] at htr
    injection htr with h2
    subst h2
    rw [addWordFrom, setTerminal_noop hterm]
  | cons a w ih =>
    intro ac cur n htr hterm
    rw [traverseTrie] at htr
    cases hc : ac.childNoChecks cur a with
    | none => rw [hc] at htr; cases htr
    | some c =>
      rw [hc] at htr
      rw [addWordFrom, hc]
      exact ih ac c n htr hterm

end AhoCorasick

namespace AhoCorasick

/-- C1: after `add_word(ac, w)`, traversing the new automaton from the root
by `w` (with the goto/fail traversal) reaches exactly the node whose index
`add_word` returned; that node's signature is `w` and it is terminal. -/
theorem claim_C1_roundtrip {ac : AhoCorasick} (hinv : AddInv ac) (w : List Nat) :
    (ac.add_word w).1.traverse_word root w = .ok (ac.add_word w).2 ∧
      (ac.add_word w).1.signature (ac.add_word w).2 = .ok w ∧
      ((ac.add_word w).1.node (ac.add_word w).2).terminal = true := by
  obtain ⟨hinv', hext, htrT, hterm, hactidx⟩ := add_word_spec hinv w
  have hrootact : (ac.add_word w).1.isActive root = true :=
    hext.1 root hinv.1.2.1
  refine ⟨?_, ?_, hterm⟩
  · rw [traverse_word_ok w hrootact]
    rw [foldl_trav_of_trT _ w root _ htrT]
  · rw [signature_ok hactidx]
    have hs0 : (ac.add_word w).1.sigF 1 root = some [] := sigF_root _ 0
    have hsw := trT_sig_addinv hinv' w root (ac.add_word w).2 [] 1 htrT hrootact hs0
    rw [List.nil_append] at hsw
    have hbound := sigF_length_lt hinv'.1.1 hsw
    have hmono := @sigF_mono _ _ _ _ hsw
      ((ac.add_word w).1.number_of_nodes + 1) (by omega)
    have : (ac.add_word w).1.sigOf (ac.add_word w).2 = w := by
      rw [sigOf, hmono]
      rfl
    rw [this]

/-- Witness for C1 at a concrete input: inserting `[5, 7]` into the empty
automaton. -/
theorem claim_C1_roundtrip_witness :
    (emptyAC.add_word [5, 7]).1.traverse_word root [5, 7]
        = .ok (emptyAC.add_word [5, 7]).2 ∧
      (emptyAC.add_word [5, 7]).1.signature (emptyAC.add_word [5, 7]).2
        = .ok [5, 7] ∧
      ((emptyAC.add_word [5, 7]).1.node (emptyAC.add_word [5, 7]).2).terminal
        = true :=
  claim_C1_roundtrip (by decide) [5, 7]

/-- C4: inserting a word that the trie already holds is a no-op: the state is
unchanged (no node changes, none is created) and the word's node index is
returned; in particular a second identical `add_word` returns exactly what
the first did.  The operation is total, so no error is raised. -/
theorem claim_C4_idempotent :
    (∀ (ac : AhoCorasick) (w : List Nat) (n : Nat),
      ac.traverseTrie root w = some n → (ac.node n).terminal = true →
      ac.add_word w = (ac, n))
    ∧ (∀ (ac : AhoCorasick), AddInv ac → ∀ w : List Nat,
        (ac.add_word w).1.add_word w = ac.add_word w) := by
  constructor
  · intro ac w n htr hterm
    exact addWordFrom_of_trT w ac root n htr hterm
  · intro ac hinv w
    obtain ⟨_, _, htrT, hterm, _⟩ := add_word_spec hinv w
    have h1 := addWordFrom_of_trT w (ac.add_word w).1 root (ac.add_word w).2
      htrT hterm
    rw [add_word, h1]

/-- Witness for C4 at a concrete input: re-inserting `[1, 2]`. -/
theorem claim_C4_idempotent_witness :
    acex.add_word [104, 101] = (acex, 2) ∧
      (emptyAC.add_word [1, 2]).1.add_word [1, 2] = emptyAC.add_word [1, 2] :=
  ⟨claim_C4_idempotent.1 acex [104, 101] 2 (by decide) (by decide),
    claim_C4_idempotent.2 emptyAC (by decide) [1, 2]⟩

/-! ### Correctness of the suffix-link resolver and the goto/fail traversal

The joint fuel-indexed induction on node height: `slFuel` computes the node
whose signature is the longest proper suffix of the node's signature present
in the trie, and `travFuel` computes the node whose signature is the longest
suffix of `W·a` present in the trie. -/

theorem tail_append_ne_nil {u : List Nat} (v : List Nat) (h : u ≠ []) :
    (u ++ v).tail = u.tail ++ v := by
  cases u with
  | nil => exact absurd rfl h
  | cons b u' => rfl

theorem suffix_tail_of_proper {s u : List Nat} (hs : s <:+ u) (hne : s ≠ u) :
    s <:+ u.tail := by
  cases u with
  | nil =>
    exact absurd (List.suffix_nil.mp hs) hne
  | cons b u' =>
    have hlen : s.length < (b :: u').length := by
      rcases Nat.lt_or_ge s.length (b :: u').length with h | h
      · exact h
      · exact absurd (suffix_eq_of_length hs h) hne
    have hlen' : s.length ≤ u'.length := by
      simp at hlen
      omega
    exact suffix_of_suffix_length_le hs (List.suffix_cons b u') hlen'

theorem proper_of_suffix_tail {s u : List Nat} (hs : s <:+ u.tail) :
    s <:+ u ∧ (u ≠ [] → s ≠ u) := by
  cases u with
  | nil => exact ⟨hs, fun h => absurd rfl h⟩
  | cons b u' =>
    refine ⟨hs.trans (List.suffix_cons b u'), fun _ heq => ?_⟩
    subst heq
    have := List.IsSuffix.length_le hs
    simp at this

theorem heightOf_pos {ac : AhoCorasick} (hwf : WF ac) {n : Nat}
    (hact : ac.isActive n = true) (hne : n ≠ root) : 0 < ac.heightOf n := by
  obtain ⟨p, a, hp, hl, _, _, _⟩ :=
    parentOkAt_spec (hwf.2.2.1 n (lt_of_isActive hact) hact hne)
  obtain ⟨_, _, hht⟩ := sig_parent hwf hact hne hp hl
  omega

theorem sl_trav_main {ac : AhoCorasick} (hwf : WF ac) :
    ∀ h : Nat,
      (∀ n, ac.isActive n = true → n ≠ root → ac.heightOf n = h →
        ∀ f, 2 * h ≤ f →
          ac.traverseTrie root (lsuf ac (ac.sigOf n).tail) = some (ac.slFuel f n)) ∧
      (∀ m, ac.isActive m = true → ac.heightOf m = h →
        ∀ a f, 2 * h + 1 ≤ f →
          ac.traverseTrie root (lsuf ac (ac.sigOf m ++ [a]))
            = some (ac.travFuel f m a)) := by
  intro h
  induction h using Nat.strong_induction_on with
  | _ h ih =>
    have hrootact : ac.isActive root = true := hwf.1.1.2.1
    have hPsl : ∀ n, ac.isActive n = true → n ≠ root → ac.heightOf n = h →
        ∀ f, 2 * h ≤ f →
          ac.traverseTrie root (lsuf ac (ac.sigOf n).tail)
            = some (ac.slFuel f n) := by
      intro n hact hne hh f hf
      obtain ⟨p, a, hp, hl, _, hpact, _⟩ :=
        parentOkAt_spec (hwf.2.2.1 n (lt_of_isActive hact) hact hne)
      obtain ⟨_, hsig, hht⟩ := sig_parent hwf hact hne hp hl
      have hpos : 0 < h := by
        rw [← hh]
        exact heightOf_pos hwf hact hne
      obtain ⟨f', rfl⟩ : ∃ f', f = f' + 1 := ⟨f - 1, by omega⟩
      rw [slFuel, if_neg hne, hp, hl, Option.getD_some, Option.getD_some]
      by_cases hpr : p = root
      · rw [if_pos hpr]
        rw [hsig, hpr, sigOf_root, List.nil_append]
        have hta : ([a] : List Nat).tail = [] := rfl
        rw [hta, lsuf]
        rfl
      · rw [if_neg hpr]
        have hppos : 0 < ac.heightOf p := heightOf_pos hwf hpact hpr
        have hsigp_ne : ac.sigOf p ≠ [] := by
          intro hnil
          obtain ⟨_, _, hlen⟩ := sig_height hwf hpact
          rw [hnil] at hlen
          simp at hlen
          omega
        have hihsl := (ih (ac.heightOf p) (by omega)).1 p hpact hpr rfl f'
          (by omega)
        have hfacts := traverseTrie_facts hwf _ root (ac.slFuel f' p)
          hrootact hihsl
        rw [sigOf_root, List.nil_append] at hfacts
        obtain ⟨hsact, hssig, hsht⟩ := hfacts
        have hshlt : ac.heightOf (ac.slFuel f' p) ≤ ac.heightOf p - 1 := by
          have h1 : (lsuf ac (ac.sigOf p).tail).length ≤ (ac.sigOf p).tail.length :=
            List.IsSuffix.length_le (lsuf_suffix ac _)
          have h2 : (ac.sigOf p).tail.length = (ac.sigOf p).length - 1 := by
            simp
          obtain ⟨_, _, hlenp⟩ := sig_height hwf hpact
          obtain ⟨_, _, hlens⟩ := sig_height hwf hsact
          rw [heightOf_root] at hsht
          simp at hsht
          omega
        have hihtrav := (ih (ac.heightOf (ac.slFuel f' p)) (by omega)).2
          (ac.slFuel f' p) hsact rfl a f' (by omega)
        have hgoal_eq : lsuf ac (ac.sigOf n).tail
            = lsuf ac (ac.sigOf (ac.slFuel f' p) ++ [a]) := by
          rw [hsig, tail_append_ne_nil [a] hsigp_ne, hssig]
          exact lsuf_congr_step a (lsuf_suffix ac _)
            (fun s hsu hin _ => lsuf_max hsu hin)
        rw [hgoal_eq]
        exact hihtrav
    refine ⟨hPsl, ?_⟩
    intro m hact hh a f hf
    cases hc : ac.childNoChecks m a with
    | some c =>
      rw [travFuel_child hc f]
      have htm := trT_sigOf hwf (ac.heightOf m) m hact rfl
      have htc : ac.traverseTrie root (ac.sigOf m ++ [a]) = some c := by
        rw [traverseTrie_append, htm]
        simp only [Option.some_bind]
        rw [traverseTrie, hc]
        rfl
      have hin : ac.inTrie (ac.sigOf m ++ [a]) = true := by
        rw [inTrie, htc]
        rfl
      rw [lsuf_of_inTrie hin]
      exact htc
    | none =>
      have htm := trT_sigOf hwf (ac.heightOf m) m hact rfl
      have hnotin : ac.inTrie (ac.sigOf m ++ [a]) = false := by
        rw [inTrie, traverseTrie_append, htm]
        simp only [Option.some_bind]
        rw [traverseTrie, hc]
        rfl
      obtain ⟨f', rfl⟩ : ∃ f', f = f' + 1 := ⟨f - 1, by omega⟩
      rw [travFuel, hc, Option.getD_none]
      by_cases hmr : m = root
      · rw [if_pos hmr]
        rw [hmr, sigOf_root, List.nil_append]
        rw [hmr, sigOf_root, List.nil_append] at hnotin
        rw [lsuf, if_neg (by rw [hnotin]; exact Bool.false_ne_true), lsuf]
        rfl
      · rw [if_neg hmr]
        have hpos : 0 < h := by
          rw [← hh]
          exact heightOf_pos hwf hact hmr
        have hsl := hPsl m hact hmr hh f' (by omega)
        have hfacts := traverseTrie_facts hwf _ root (ac.slFuel f' m)
          hrootact hsl
        rw [sigOf_root, List.nil_append] at hfacts
        obtain ⟨hsact, hssig, hsht⟩ := hfacts
        have hsig_ne : ac.sigOf m ≠ [] := by
          intro hnil
          obtain ⟨_, _, hlen⟩ := sig_height hwf hact
          rw [hnil] at hlen
          simp at hlen
          omega
        have hshlt : ac.heightOf (ac.slFuel f' m) ≤ h - 1 := by
          have h1 : (lsuf ac (ac.sigOf m).tail).length ≤ (ac.sigOf m).tail.length :=
            List.IsSuffix.length_le (lsuf_suffix ac _)
          have h2 : (ac.sigOf m).tail.length = (ac.sigOf m).length - 1 := by
            simp
          obtain ⟨_, _, hlenm⟩ := sig_height hwf hact
          obtain ⟨_, _, hlens⟩ := sig_height hwf hsact
          rw [heightOf_root] at hsht
          simp at hsht
          omega
        have hihtrav := (ih (ac.heightOf (ac.slFuel f' m)) (by omega)).2
          (ac.slFuel f' m) hsact rfl a f' (by omega)
        have hgoal_eq : lsuf ac (ac.sigOf m ++ [a])
            = lsuf ac (ac.sigOf (ac.slFuel f' m) ++ [a]) := by
          rw [hssig]
          refine lsuf_congr_step a
            ((lsuf_suffix ac _).trans (List.tail_suffix _)) ?_
          intro s hsu hsin hsain
          have hsne : s ≠ ac.sigOf m := by
            intro heq
            subst heq
            rw [hsain] at hnotin
            cases hnotin
          exact lsuf_max (suffix_tail_of_proper hsu hsne) hsin
        rw [hgoal_eq]
        exact hihtrav

theorem traverse_resolved {ac : AhoCorasick} (hwf : WF ac) {m : Nat}
    (hact : ac.isActive m = true) (a : Nat) :
    ac.traverseTrie root (lsuf ac (ac.sigOf m ++ [a]))
      = some (ac.travFuel ac.bigFuel m a) := by
  have hlt := heightOf_lt hwf hact
  exact (sl_trav_main hwf (ac.heightOf m)).2 m hact rfl a ac.bigFuel
    (by rw [bigFuel]; omega)

theorem suffix_link_resolved {ac : AhoCorasick} (hwf : WF ac) {n : Nat}
    (hact : ac.isActive n = true) (hne : n ≠ root) :
    ac.suffix_link n = .ok (ac.slFuel ac.bigFuel n) ∧
      ac.isActive (ac.slFuel ac.bigFuel n) = true ∧
      ac.sigOf (ac.slFuel ac.bigFuel n) = lsuf ac (ac.sigOf n).tail := by
  have hlt := heightOf_lt hwf hact
  have hchar := (sl_trav_main hwf (ac.heightOf n)).1 n hact hne rfl ac.bigFuel
    (by rw [bigFuel]; omega)
  have hfacts := traverseTrie_facts hwf _ root _ hwf.1.1.2.1 hchar
  rw [sigOf_root, List.nil_append] at hfacts
  exact ⟨suffix_link_ok hact, hfacts.1, hfacts.2.1⟩

theorem sigOf_nonempty {ac : AhoCorasick} (hwf : WF ac) {n : Nat}
    (hact : ac.isActive n = true) (hne : n ≠ root) : ac.sigOf n ≠ [] := by
  intro hnil
  obtain ⟨_, _, hlen⟩ := sig_height hwf hact
  have := heightOf_pos hwf hact hne
  rw [hnil] at hlen
  simp at hlen
  omega

theorem inTrie_step_false {ac : AhoCorasick} (hwf : WF ac) {m a : Nat}
    (hact : ac.isActive m = true) (hc : ac.childNoChecks m a = none) :
    ac.inTrie (ac.sigOf m ++ [a]) = false := by
  have htm := trT_sigOf hwf (ac.heightOf m) m hact rfl
  rw [inTrie, traverseTrie_append, htm]
  simp only [Option.some_bind]
  rw [traverseTrie, hc]
  rfl

theorem lsuf_fallback_eq {ac : AhoCorasick} {m a : Nat}
    (hnotin : ac.inTrie (ac.sigOf m ++ [a]) = false) :
    lsuf ac (ac.sigOf m ++ [a])
      = lsuf ac (lsuf ac (ac.sigOf m).tail ++ [a]) := by
  refine lsuf_congr_step a ((lsuf_suffix ac _).trans (List.tail_suffix _)) ?_
  intro s hsu hsin hsain
  have hsne : s ≠ ac.sigOf m := by
    intro heq
    subst heq
    rw [hsain] at hnotin
    cases hnotin
  exact lsuf_max (suffix_tail_of_proper hsu hsne) hsin

theorem trav_eq_fallback {ac : AhoCorasick} (hwf : WF ac) {m a : Nat}
    (hact : ac.isActive m = true) (hc : ac.childNoChecks m a = none)
    (hmr : m ≠ root) :
    ac.travFuel ac.bigFuel m a
      = ac.travFuel ac.bigFuel (ac.slFuel ac.bigFuel m) a := by
  obtain ⟨_, hsact, hssig⟩ := suffix_link_resolved hwf hact hmr
  have h1 := traverse_resolved hwf hact a
  have h2 := traverse_resolved hwf hsact a
  rw [hssig] at h2
  rw [lsuf_fallback_eq (inTrie_step_false hwf hact hc), h2] at h1
  exact (Option.some.inj h1).symm

/-- C2: for every active node `cur` of a well-formed automaton and every
symbol `a`: `traverse(cur, a)` returns the child of `cur` labelled `a` when
it exists; otherwise it stays at the root when `cur` is the root; otherwise
it agrees with `traverse(suffix_link(cur), a)`; and in every case it returns
an active node whose signature is the longest suffix of `W·a` (for `W` the
signature of `cur`) present in the trie. -/
theorem claim_C2_traverse {ac : AhoCorasick} (hwf : WF ac) {cur : Nat}
    (hact : ac.isActive cur = true) (a : Nat) :
    (∀ c, ac.childNoChecks cur a = some c → ac.traverse cur a = .ok c)
    ∧ (ac.childNoChecks cur a = none → cur = root →
        ac.traverse cur a = .ok root)
    ∧ (ac.childNoChecks cur a = none → cur ≠ root →
        ∃ s, ac.suffix_link cur = .ok s ∧ ac.isActive s = true ∧
          ac.traverse cur a = ac.traverse s a)
    ∧ (∃ r, ac.traverse cur a = .ok r ∧ ac.isActive r = true ∧
        IsLongestTrieSuffix ac (ac.sigOf cur ++ [a]) (ac.sigOf r)) := by
  refine ⟨?_, ?_, ?_, ?_⟩
  · intro c hc
    rw [traverse_ok a hact, travFuel_child hc]
  · intro hc hcr
    rw [traverse_ok a hact]
    rw [bigFuel, travFuel, hc, Option.getD_none, if_pos hcr]
  · intro hc hcr
    obtain ⟨hok, hsact, _⟩ := suffix_link_resolved hwf hact hcr
    refine ⟨ac.slFuel ac.bigFuel cur, hok, hsact, ?_⟩
    rw [traverse_ok a hact, traverse_ok a hsact,
      trav_eq_fallback hwf hact hc hcr]
  · have hchar := traverse_resolved hwf hact a
    have hfacts := traverseTrie_facts hwf _ root _ hwf.1.1.2.1 hchar
    rw [sigOf_root, List.nil_append] at hfacts
    refine ⟨ac.travFuel ac.bigFuel cur a, traverse_ok a hact, hfacts.1, ?_⟩
    rw [hfacts.2.1]
    exact lsuf_isLongest ac _

/-- Witness for C2 at a concrete input: the `"she"` node of the classic
example automaton, traversed by `'r'`. -/
theorem claim_C2_traverse_witness :
    ∃ r, acex.traverse 5 114 = .ok r ∧ acex.isActive r = true ∧
      IsLongestTrieSuffix acex (acex.sigOf 5 ++ [114]) (acex.sigOf r) :=
  (@claim_C2_traverse acex (by decide) 5 (by decide) 114).2.2.2

theorem acex_suffix_link_eq {n s : Nat} (hact : acex.isActive n = true)
    (hne : n ≠ root) (hs : acex.isActive s = true)
    (hlsuf : lsuf acex (acex.sigOf n).tail = acex.sigOf s) :
    acex.suffix_link n = .ok s := by
  obtain ⟨hok, htact, htsig⟩ := suffix_link_resolved (by decide) hact hne
  have heq : acex.slFuel acex.bigFuel n = s :=
    sig_injective (by decide) htact hs (by rw [htsig, hlsuf])
  rwa [heq] at hok

theorem acex_sl_she : acex.suffix_link 5 = .ok 2 :=
  acex_suffix_link_eq (by decide) (by decide) (by decide) (by decide)

theorem acex_sl_hers : acex.suffix_link 9 = .ok 3 :=
  acex_suffix_link_eq (by decide) (by decide) (by decide) (by decide)

/-- C3 counterexample: in the automaton holding `"he"`, `"she"`, `"his"`,
`"hers"` (inserted in that order), the node for `"hers"` is index 9 and the
node for `"he"` is index 2, but the suffix link of node 9 is node 3 — the
node for `"s"` — not the node for `"he"`, refuting the claim's concrete
expectation. -/
theorem claim_C3_counterexample :
    acex.traverseTrieStr root exW4 = some 9 ∧
      acex.traverseTrieStr root exW1 = some 2 ∧
      acex.traverseTrieStr root ['s'] = some 3 ∧
      acex.suffix_link 9 = .ok 3 ∧ acex.suffix_link 9 ≠ .ok 2 := by
  refine ⟨by decide, by decide, by decide, acex_sl_hers, ?_⟩
  rw [acex_sl_hers]
  intro h
  cases h

/-- C3 (amended): for every active non-root node of a well-formed automaton,
`suffix_link` returns an active node whose signature is the longest proper
suffix of the node's signature present in the trie; in the `"he"`, `"she"`,
`"his"`, `"hers"` example the suffix link of the `"she"` node is the `"he"`
node, and the suffix link of the `"hers"` node is the `"s"` node. -/
theorem claim_C3_suffix_link :
    (∀ ac : AhoCorasick, WF ac → ∀ n, ac.isActive n = true → n ≠ root →
      ∃ s, ac.suffix_link n = .ok s ∧ ac.isActive s = true ∧
        ac.inTrie (ac.sigOf s) = true ∧ ac.sigOf s <:+ ac.sigOf n ∧
        ac.sigOf s ≠ ac.sigOf n ∧
        (∀ t, t <:+ ac.sigOf n → t ≠ ac.sigOf n → ac.inTrie t = true →
          t.length ≤ (ac.sigOf s).length))
    ∧ (acex.traverseTrieStr root exW2 = some 5 ∧
        acex.traverseTrieStr root exW1 = some 2 ∧
        acex.suffix_link 5 = .ok 2)
    ∧ (acex.traverseTrieStr root exW4 = some 9 ∧
        acex.traverseTrieStr root ['s'] = some 3 ∧
        acex.suffix_link 9 = .ok 3) := by
  refine ⟨?_, ⟨by decide, by decide, acex_sl_she⟩,
    ⟨by decide, by decide, acex_sl_hers⟩⟩
  intro ac hwf n hact hne
  obtain ⟨hok, hsact, hssig⟩ := suffix_link_resolved hwf hact hne
  have hne_nil := sigOf_nonempty hwf hact hne
  refine ⟨ac.slFuel ac.bigFuel n, hok, hsact, ?_, ?_, ?_, ?_⟩
  · rw [hssig]
    exact lsuf_inTrie ac _
  · rw [hssig]
    exact (lsuf_suffix ac _).trans (List.tail_suffix _)
  · rw [hssig]
    exact (proper_of_suffix_tail (lsuf_suffix ac _)).2 hne_nil
  · intro t ht htne htin
    rw [hssig]
    exact List.IsSuffix.length_le (lsuf_max (suffix_tail_of_proper ht htne) htin)

/-- Witness for the amended C3 on a concrete input: the `"his"` node. -/
theorem claim_C3_suffix_link_witness :
    ∃ s, acex.suffix_link 7 = .ok s ∧ acex.isActive s = true ∧
      acex.inTrie (acex.sigOf s) = true ∧ acex.sigOf s <:+ acex.sigOf 7 ∧
      acex.sigOf s ≠ acex.sigOf 7 ∧
      (∀ t, t <:+ acex.sigOf 7 → t ≠ acex.sigOf 7 → acex.inTrie t = true →
        t.length ≤ (acex.sigOf s).length) :=
  claim_C3_suffix_link.1 acex (by decide) 7 (by decide) (by decide)

/-- C5: removing a word `w1` that is a strict prefix of another stored word
`w2` only clears the terminal flag of `w1`'s node: the node stays active,
every other node is untouched, nothing is freed (the free list and the arena
are unchanged), and `w2` is still fully traversable with its final node
terminal. -/
theorem claim_C5_prefix_preserved {ac : AhoCorasick} (hwf : WF ac)
    {w1 w2 : List Nat} {n1 n2 : Nat}
    (h1 : ac.traverseTrie root w1 = some n1)
    (ht1 : (ac.node n1).terminal = true)
    (h2 : ac.traverseTrie root w2 = some n2)
    (ht2 : (ac.node n2).terminal = true)
    (hpre : w1 <+: w2) (hne : w1 ≠ w2) :
    ac.rm_word w1 = (ac.setTerminal n1 false, some n1) ∧
      (ac.rm_word w1).1.isActive n1 = true ∧
      ((ac.rm_word w1).1.node n1).terminal = false ∧
      (∀ j, j ≠ n1 → (ac.rm_word w1).1.node j = ac.node j) ∧
      (ac.rm_word w1).1.freeList = ac.freeList ∧
      (ac.rm_word w1).1.number_of_nodes = ac.number_of_nodes ∧
      (ac.rm_word w1).1.traverseTrie root w2 = some n2 ∧
      ((ac.rm_word w1).1.node n2).terminal = true := by
  have hrootact : ac.isActive root = true := hwf.1.1.2.1
  obtain ⟨hact1, _, hh1⟩ := traverseTrie_facts hwf w1 root n1 hrootact h1
  obtain ⟨_, _, hh2⟩ := traverseTrie_facts hwf w2 root n2 hrootact h2
  obtain ⟨t, htw⟩ := hpre
  have htne : t ≠ [] := by
    intro hnil
    rw [hnil, List.append_nil] at htw
    exact hne htw
  obtain ⟨b, rest, rfl⟩ : ∃ b rest, t = b :: rest := by
    cases t with
    | nil => exact absurd rfl htne
    | cons b rest => exact ⟨b, rest, rfl⟩
  have hn1n2 : n1 ≠ n2 := by
    intro heq
    rw [← htw] at hh2
    rw [heq] at hh1
    rw [hh1] at hh2
    simp at hh2
  have hstep : ∃ c, ac.childNoChecks n1 b = some c := by
    rw [← htw, traverseTrie_append, h1] at h2
    simp only [Option.some_bind] at h2
    rw [traverseTrie] at h2
    cases hc : ac.childNoChecks n1 b with
    | none => rw [hc] at h2; cases h2
    | some c => exact ⟨c, rfl⟩
  obtain ⟨c, hc⟩ := hstep
  have hchne : (ac.node n1).children ≠ [] := by
    intro hnil
    rw [childNoChecks, hnil] at hc
    cases hc
  have hrm : ac.rm_word w1 = (ac.setTerminal n1 false, some n1) := by
    rw [rm_word, h1]
    show (if ¬ (ac.node n1).terminal = true then (ac, some n1)
        else if (ac.node n1).children ≠ [] then (ac.setTerminal n1 false, some n1)
        else ((ac.setTerminal n1 false).rmLoop n1 (w1.length + 1), some n1))
      = (ac.setTerminal n1 false, some n1)
    rw [if_neg (not_not_intro ht1), if_pos hchne]
  refine ⟨hrm, ?_, ?_, ?_, ?_, ?_, ?_, ?_⟩
  · rw [hrm, isActive_setTerminal]
    exact hact1
  · rw [hrm]
    exact terminal_setTerminal_self false (lt_of_isActive hact1)
  · intro j hj
    rw [hrm]
    exact node_setTerminal_ne false hj
  · rw [hrm, freeList_setTerminal]
  · rw [hrm, number_of_nodes_setTerminal]
  · rw [hrm]
    rw [traverseTrie_setTerminal]
    exact h2
  · rw [hrm]
    rw [node_setTerminal_ne false (fun hh => hn1n2 hh.symm)]
    exact ht2

/-- Witness for C5 at a concrete input: `[1, 2]` as a strict prefix of
`[1, 2, 3]`, both inserted into the empty automaton. -/
theorem claim_C5_prefix_preserved_witness :
    ((emptyAC.add_word [1, 2]).1.add_word [1, 2, 3]).1.rm_word [1, 2]
        = (((emptyAC.add_word [1, 2]).1.add_word [1, 2, 3]).1.setTerminal 2 false,
            some 2) ∧
      (((emptyAC.add_word [1, 2]).1.add_word [1, 2, 3]).1.rm_word
          [1, 2]).1.isActive 2 = true ∧
      ((((emptyAC.add_word [1, 2]).1.add_word [1, 2, 3]).1.rm_word
          [1, 2]).1.node 2).terminal = false ∧
      (∀ j, j ≠ 2 →
        (((emptyAC.add_word [1, 2]).1.add_word [1, 2, 3]).1.rm_word
            [1, 2]).1.node j
          = ((emptyAC.add_word [1, 2]).1.add_word [1, 2, 3]).1.node j) ∧
      (((emptyAC.add_word [1, 2]).1.add_word [1, 2, 3]).1.rm_word
          [1, 2]).1.freeList
        = ((emptyAC.add_word [1, 2]).1.add_word [1, 2, 3]).1.freeList ∧
      (((emptyAC.add_word [1, 2]).1.add_word [1, 2, 3]).1.rm_word
          [1, 2]).1.number_of_nodes
        = ((emptyAC.add_word [1, 2]).1.add_word [1, 2, 3]).1.number_of_nodes ∧
      (((emptyAC.add_word [1, 2]).1.add_word [1, 2, 3]).1.rm_word
          [1, 2]).1.traverseTrie root [1, 2, 3] = some 3 ∧
      ((((emptyAC.add_word [1, 2]).1.add_word [1, 2, 3]).1.rm_word
          [1, 2]).1.node 3).terminal = true :=
  claim_C5_prefix_preserved (by decide) (by decide) (by decide) (by decide)
    (by decide) ⟨[3], rfl⟩ (by decide)

/-! ### The removal-inverse lemmas

Inserting a fresh word into an automaton whose free list is empty appends a
"line" of nodes (one per remaining letter) at the end of the arena; removing
that word walks the line upward and frees exactly those nodes, restoring the
previous trie shape with the freed slots on the free list. -/

/-! ### List-level helpers -/

theorem getD_blank_replicate : ∀ (n i : Nat), (List.replicate n blank).getD i blank = blank := by
  intro n
  induction n with
  | zero => intro i; cases i <;> rfl
  | succ n ih =>
    intro i
    cases i with
    | zero => rfl
    | succ i => exact ih i

theorem set_append_length {α : Type} (pre tail : List α) (x v : α) :
    (pre ++ x :: tail).set pre.length v = pre ++ v :: tail := by
  induction pre with
  | nil => rfl
  | cons y t ih =>
    show y :: (t ++ x :: tail).set t.length v = y :: (t ++ v :: tail)
    rw [ih]

/-! ### Arena access on explicitly split node lists -/

theorem node_mk_mid (pre tail : List Node) (x : Node) (fl : List Nat) :
    (AhoCorasick.mk (pre ++ x :: tail) fl).node pre.length = x := by
  simp only [node]
  rw [List.getD_append_right _ _ _ _ (Nat.le_refl _), Nat.sub_self]
  rfl

theorem node_mk_left (pre tail : List Node) (fl : List Nat) {j : Nat} (h : j < pre.length) :
    (AhoCorasick.mk (pre ++ tail) fl).node j = pre.getD j blank := by
  simp only [node]
  exact List.getD_append _ _ _ _ h

theorem setNode_mk_mid (pre tail : List Node) (x v : Node) (fl : List Nat) :
    (AhoCorasick.mk (pre ++ x :: tail) fl).setNode pre.length v
      = ⟨pre ++ v :: tail, fl⟩ := by
  rw [setNode]
  show AhoCorasick.mk ((pre ++ x :: tail).set pre.length v) fl = _
  rw [set_append_length]

theorem setNode_mk_left (pre tail : List Node) (v : Node) (fl : List Nat) {j : Nat}
    (h : j < pre.length) :
    (AhoCorasick.mk (pre ++ tail) fl).setNode j v = ⟨pre.set j v ++ tail, fl⟩ := by
  rw [setNode]
  show AhoCorasick.mk ((pre ++ tail).set j v) fl = _
  rw [List.set_append_left j v h]

theorem eraseEdge_mk_left (pre tail : List Node) (a : Nat) (fl : List Nat) {p : Nat}
    (hp : p < pre.length) :
    (AhoCorasick.mk (pre ++ tail) fl).eraseEdge p a
      = ⟨pre.set p { pre.getD p blank with
          children := (pre.getD p blank).children.filter (fun x => x.1 ≠ a) } ++ tail, fl⟩ := by
  rw [eraseEdge, node_mk_left pre tail fl hp]
  exact setNode_mk_left pre tail _ fl hp

theorem freeNode_mk_mid (pre tail : List Node) (x : Node) (fl : List Nat) :
    (AhoCorasick.mk (pre ++ x :: tail) fl).freeNode pre.length
      = ⟨pre ++ blank :: tail, pre.length :: fl⟩ := by
  rw [freeNode]
  show AhoCorasick.mk ((pre ++ x :: tail).set pre.length blank) (pre.length :: fl) = _
  rw [set_append_length]

/-! ### Insertion of a fresh word builds a line -/

theorem addWordFrom_line : ∀ (w : List Nat) (p a : Nat) (pre : List Node),
    AhoCorasick.addWordFrom ⟨pre ++ [⟨some p, some a, [], false, true⟩], []⟩ pre.length w
      = (⟨pre ++ lineFrom p pre.length a w, []⟩, pre.length + w.length) := by
  intro w
  induction w with
  | nil =>
    intro p a pre
    rw [addWordFrom, setTerminal, node_mk_mid pre [] _ [], setNode_mk_mid pre [] _ _ []]
    rfl
  | cons b w2 ih =>
    intro p a pre
    have hcc : (AhoCorasick.mk (pre ++ [⟨some p, some a, [], false, true⟩]) []).childNoChecks
        pre.length b = none := by
      rw [childNoChecks, node_mk_mid]
      rfl
    have halloc : (AhoCorasick.mk (pre ++ [⟨some p, some a, [], false, true⟩]) []).allocate
        pre.length b
        = (⟨(pre ++ [⟨some p, some a, [], false, true⟩])
              ++ [⟨some pre.length, some b, [], false, true⟩], []⟩, pre.length + 1) := by
      show ((⟨(pre ++ [⟨some p, some a, [], false, true⟩])
              ++ [⟨some pre.length, some b, [], false, true⟩], []⟩ : AhoCorasick),
            (pre ++ [(⟨some p, some a, [], false, true⟩ : Node)]).length) = _
      rw [List.length_append]
      rfl
    have hred : AhoCorasick.addWordFrom ⟨pre ++ [⟨some p, some a, [], false, true⟩], []⟩
          pre.length (b :: w2)
        = AhoCorasick.addWordFrom
            ((⟨(pre ++ [⟨some p, some a, [], false, true⟩])
                ++ [⟨some pre.length, some b, [], false, true⟩], []⟩ : AhoCorasick).addEdge
              pre.length b (pre.length + 1)) (pre.length + 1) w2 := by
      rw [addWordFrom, hcc, halloc]
    have hedge : ((⟨(pre ++ [⟨some p, some a, [], false, true⟩])
            ++ [⟨some pre.length, some b, [], false, true⟩], []⟩ : AhoCorasick).addEdge
          pre.length b (pre.length + 1))
        = ⟨(pre ++ [⟨some p, some a, [(b, pre.length + 1)], false, true⟩])
            ++ [⟨some pre.length, some b, [], false, true⟩], []⟩ := by
      rw [show (pre ++ [(⟨some p, some a, [], false, true⟩ : Node)])
              ++ [⟨some pre.length, some b, [], false, true⟩]
            = pre ++ (⟨some p, some a, [], false, true⟩ : Node)
              :: [⟨some pre.length, some b, [], false, true⟩] from by
            rw [List.append_assoc]
            rfl]
      rw [addEdge, node_mk_mid, setNode_mk_mid]
      rw [List.append_assoc]
      rfl
    rw [hred, hedge]
    have hlen : (pre ++ [(⟨some p, some a, [(b, pre.length + 1)], false, true⟩ : Node)]).length
        = pre.length + 1 := by
      rw [List.length_append]
      rfl
    have hmain := ih pre.length b (pre ++ [⟨some p, some a, [(b, pre.length + 1)], false, true⟩])
    rw [hlen] at hmain
    rw [hmain, List.append_assoc]
    have harith : pre.length + 1 + w2.length = pre.length + (b :: w2).length := by
      simp only [List.length_cons]
      omega
    rw [harith]
    rfl

/-! ### Trie traversal along the line, and the line's last node -/

theorem traverseTrie_line : ∀ (w : List Nat) (p a : Nat) (pre : List Node) (fl : List Nat),
    AhoCorasick.traverseTrie ⟨pre ++ lineFrom p pre.length a w, fl⟩ pre.length w
      = some (pre.length + w.length) := by
  intro w
  induction w with
  | nil => intro p a pre fl; rfl
  | cons b w2 ih =>
    intro p a pre fl
    have hcc : (AhoCorasick.mk (pre ++ lineFrom p pre.length a (b :: w2)) fl).childNoChecks
        pre.length b = some (pre.length + 1) := by
      rw [show lineFrom p pre.length a (b :: w2)
          = (⟨some p, some a, [(b, pre.length + 1)], false, true⟩ : Node)
            :: lineFrom pre.length (pre.length + 1) b w2 from rfl]
      rw [childNoChecks, node_mk_mid]
      show (if b = b then some (pre.length + 1) else lookupA b []) = some (pre.length + 1)
      rw [if_pos rfl]
    have hred : (AhoCorasick.mk (pre ++ lineFrom p pre.length a (b :: w2)) fl).traverseTrie
          pre.length (b :: w2)
        = (AhoCorasick.mk (pre ++ lineFrom p pre.length a (b :: w2)) fl).traverseTrie
            (pre.length + 1) w2 := by
      rw [traverseTrie, hcc]
    rw [hred]
    have hsplit : pre ++ lineFrom p pre.length a (b :: w2)
        = (pre ++ [(⟨some p, some a, [(b, pre.length + 1)], false, true⟩ : Node)])
            ++ lineFrom pre.length (pre.length + 1) b w2 := by
      rw [List.append_assoc]
      rfl
    rw [hsplit]
    have hlen : (pre ++ [(⟨some p, some a, [(b, pre.length + 1)], false, true⟩ : Node)]).length
        = pre.length + 1 := by
      rw [List.length_append]
      rfl
    have hmain := ih pre.length b
      (pre ++ [⟨some p, some a, [(b, pre.length + 1)], false, true⟩]) fl
    rw [hlen] at hmain
    rw [hmain]
    have harith : pre.length + 1 + w2.length = pre.length + (b :: w2).length := by
      simp only [List.length_cons]
      omega
    rw [harith]

theorem node_line_last : ∀ (w : List Nat) (p a : Nat) (pre : List Node) (fl : List Nat),
    ∃ q l, (AhoCorasick.mk (pre ++ lineFrom p pre.length a w) fl).node (pre.length + w.length)
      = ⟨some q, some l, [], true, true⟩ := by
  intro w
  induction w with
  | nil =>
    intro p a pre fl
    exact ⟨p, a, node_mk_mid pre [] _ fl⟩
  | cons b w2 ih =>
    intro p a pre fl
    have hsplit : pre ++ lineFrom p pre.length a (b :: w2)
        = (pre ++ [(⟨some p, some a, [(b, pre.length + 1)], false, true⟩ : Node)])
            ++ lineFrom pre.length (pre.length + 1) b w2 := by
      rw [List.append_assoc]
      rfl
    have hlen : (pre ++ [(⟨some p, some a, [(b, pre.length + 1)], false, true⟩ : Node)]).length
        = pre.length + 1 := by
      rw [List.length_append]
      rfl
    obtain ⟨q, l, hq⟩ := ih pre.length b
      (pre ++ [⟨some p, some a, [(b, pre.length + 1)], false, true⟩]) fl
    rw [hlen] at hq
    refine ⟨q, l, ?_⟩
    rw [hsplit]
    rw [show pre.length + (b :: w2).length = pre.length + 1 + w2.length from by
      simp only [List.length_cons]; omega]
    exact hq

theorem setTerminal_line_last : ∀ (w : List Nat) (p a : Nat) (pre : List Node) (fl : List Nat),
    (AhoCorasick.mk (pre ++ lineFrom p pre.length a w) fl).setTerminal
        (pre.length + w.length) false
      = ⟨pre ++ lineStub p pre.length a w, fl⟩ := by
  intro w
  induction w with
  | nil =>
    intro p a pre fl
    rw [show pre.length + List.length ([] : List Nat) = pre.length from rfl]
    rw [show lineFrom p pre.length a [] = [(⟨some p, some a, [], true, true⟩ : Node)] from rfl]
    rw [setTerminal, node_mk_mid pre [] _ fl, setNode_mk_mid pre [] _ _ fl]
    rfl
  | cons b w2 ih =>
    intro p a pre fl
    have hsplit : pre ++ lineFrom p pre.length a (b :: w2)
        = (pre ++ [(⟨some p, some a, [(b, pre.length + 1)], false, true⟩ : Node)])
            ++ lineFrom pre.length (pre.length + 1) b w2 := by
      rw [List.append_assoc]
      rfl
    have hlen : (pre ++ [(⟨some p, some a, [(b, pre.length + 1)], false, true⟩ : Node)]).length
        = pre.length + 1 := by
      rw [List.length_append]
      rfl
    have hmain := ih pre.length b
      (pre ++ [⟨some p, some a, [(b, pre.length + 1)], false, true⟩]) fl
    rw [hlen] at hmain
    rw [hsplit]
    rw [show pre.length + (b :: w2).length = pre.length + 1 + w2.length from by
      simp only [List.length_cons]; omega]
    rw [hmain, List.append_assoc]
    rfl

/-! ### The upward freeing walk of `rm_word` along the stub -/

theorem rmLoop_stub_nil (p a fuel : Nat) (pre tail : List Node) (fl : List Nat)
    (hpre : 0 < pre.length) (hp : p < pre.length) :
    AhoCorasick.rmLoop ⟨pre ++ (⟨some p, some a, [], false, true⟩ : Node) :: tail, fl⟩
        pre.length (fuel + 1)
      = AhoCorasick.rmLoop
          ⟨pre.set p { pre.getD p blank with
              children := (pre.getD p blank).children.filter (fun x => x.1 ≠ a) }
            ++ blank :: tail, pre.length :: fl⟩ p fuel := by
  rw [rmLoop, node_mk_mid pre tail _ fl]
  rw [if_neg (show ¬ (pre.length = root) from fun h => Nat.pos_iff_ne_zero.mp hpre h)]
  rw [if_neg (fun h => Bool.noConfusion h)]
  rw [if_neg (not_not_intro rfl)]
  show AhoCorasick.rmLoop
      (((AhoCorasick.mk (pre ++ (⟨some p, some a, [], false, true⟩ : Node) :: tail)
          fl).eraseEdge p a).freeNode pre.length) p fuel = _
  rw [eraseEdge_mk_left pre _ a fl hp]
  have hsl : (pre.set p { pre.getD p blank with
      children := (pre.getD p blank).children.filter (fun x => x.1 ≠ a) }).length
      = pre.length := by
    rw [List.length_set]
  rw [← hsl]
  rw [freeNode_mk_mid]

theorem rmLoop_line : ∀ (w : List Nat) (p a fuel : Nat) (pre tail : List Node) (fl : List Nat),
    0 < pre.length → p < pre.length →
    AhoCorasick.rmLoop ⟨pre ++ (lineStub p pre.length a w ++ tail), fl⟩
        (pre.length + w.length) (fuel + (w.length + 1))
      = AhoCorasick.rmLoop
          ⟨pre.set p { pre.getD p blank with
              children := (pre.getD p blank).children.filter (fun x => x.1 ≠ a) }
            ++ (List.replicate (w.length + 1) blank ++ tail),
            List.range' pre.length (w.length + 1) ++ fl⟩ p fuel := by
  intro w
  induction w with
  | nil =>
    intro p a fuel pre tail fl hpre hp
    exact rmLoop_stub_nil p a fuel pre tail fl hpre hp
  | cons b w2 ih =>
    intro p a fuel pre tail fl hpre hp
    have hsplit : pre ++ (lineStub p pre.length a (b :: w2) ++ tail)
        = (pre ++ [(⟨some p, some a, [(b, pre.length + 1)], false, true⟩ : Node)])
            ++ (lineStub pre.length (pre.length + 1) b w2 ++ tail) := by
      rw [List.append_assoc]
      rfl
    have hlen : (pre ++ [(⟨some p, some a, [(b, pre.length + 1)], false, true⟩ : Node)]).length
        = pre.length + 1 := by
      rw [List.length_append]
      rfl
    have hgd : (pre ++ [(⟨some p, some a, [(b, pre.length + 1)], false, true⟩ : Node)]).getD
        pre.length blank
        = ⟨some p, some a, [(b, pre.length + 1)], false, true⟩ := by
      rw [List.getD_append_right _ _ _ _ (Nat.le_refl _), Nat.sub_self]
      rfl
    have h1 := ih pre.length b (fuel + 1)
      (pre ++ [⟨some p, some a, [(b, pre.length + 1)], false, true⟩]) tail fl
      (by simp only [List.length_append, List.length_cons, List.length_nil]; omega)
      (by simp only [List.length_append, List.length_cons, List.length_nil]; omega)
    rw [hlen, hgd, set_append_length] at h1
    have hstub : ({ (⟨some p, some a, [(b, pre.length + 1)], false, true⟩ : Node) with
        children := (Node.children
            ⟨some p, some a, [(b, pre.length + 1)], false, true⟩).filter
          (fun x => x.1 ≠ b) } : Node)
        = ⟨some p, some a, [], false, true⟩ := by
      simp
    rw [hstub] at h1
    have hidx : pre.length + (b :: w2).length = pre.length + 1 + w2.length := by
      simp only [List.length_cons]
      omega
    have hfuel : fuel + ((b :: w2).length + 1) = (fuel + 1) + (w2.length + 1) := by
      simp only [List.length_cons]
      omega
    rw [hsplit, hidx, hfuel, h1]
    rw [List.append_assoc, List.singleton_append]
    rw [rmLoop_stub_nil p a fuel pre
      (List.replicate (w2.length + 1) blank ++ tail)
      (List.range' (pre.length + 1) (w2.length + 1) ++ fl) hpre hp]
    rfl

/-! ### Add-then-remove on the empty automaton -/

theorem add_rm_empty : ∀ (w : List Nat),
    ((emptyAC.add_word w).1.rm_word w).1
      = ⟨⟨none, none, [], false, true⟩ :: List.replicate w.length blank,
          List.range' 1 w.length⟩ := by
  intro w
  cases w with
  | nil => rfl
  | cons b w' =>
    have hadd : emptyAC.add_word (b :: w')
        = AhoCorasick.addWordFrom
            ⟨[⟨none, none, [(b, 1)], false, true⟩] ++ [⟨some 0, some b, [], false, true⟩], []⟩
            1 w' := rfl
    have hline := addWordFrom_line w' 0 b [⟨none, none, [(b, 1)], false, true⟩]
    rw [show ([(⟨none, none, [(b, 1)], false, true⟩ : Node)]).length = 1 from rfl] at hline
    have hcc : (AhoCorasick.mk
          ([⟨none, none, [(b, 1)], false, true⟩] ++ lineFrom 0 1 b w') []).childNoChecks
        root b = some 1 := by
      rw [childNoChecks]
      show lookupA b [((b : Nat), 1)] = some 1
      rw [lookupA, if_pos rfl]
    have htrav : (AhoCorasick.mk
          ([⟨none, none, [(b, 1)], false, true⟩] ++ lineFrom 0 1 b w') []).traverseTrie
        root (b :: w') = some (1 + w'.length) := by
      have hred : (AhoCorasick.mk
            ([⟨none, none, [(b, 1)], false, true⟩] ++ lineFrom 0 1 b w') []).traverseTrie
          root (b :: w')
          = (AhoCorasick.mk
              ([⟨none, none, [(b, 1)], false, true⟩] ++ lineFrom 0 1 b w') []).traverseTrie
            1 w' := by
        rw [traverseTrie, hcc]
      have hmain := traverseTrie_line w' 0 b [⟨none, none, [(b, 1)], false, true⟩] []
      rw [show ([(⟨none, none, [(b, 1)], false, true⟩ : Node)]).length = 1 from rfl] at hmain
      rw [hred, hmain]
    obtain ⟨q, l, hq⟩ := node_line_last w' 0 b [⟨none, none, [(b, 1)], false, true⟩] []
    rw [show ([(⟨none, none, [(b, 1)], false, true⟩ : Node)]).length = 1 from rfl] at hq
    have hrm : (AhoCorasick.mk
          ([⟨none, none, [(b, 1)], false, true⟩] ++ lineFrom 0 1 b w') []).rm_word (b :: w')
        = (((AhoCorasick.mk
              ([⟨none, none, [(b, 1)], false, true⟩] ++ lineFrom 0 1 b w') []).setTerminal
                (1 + w'.length) false).rmLoop (1 + w'.length) ((b :: w').length + 1),
            some (1 + w'.length)) := by
      rw [rm_word, htrav]
      show (if ¬ ((AhoCorasick.mk
              ([⟨none, none, [(b, 1)], false, true⟩] ++ lineFrom 0 1 b w') []).node
                (1 + w'.length)).terminal = true
          then ((AhoCorasick.mk
              ([⟨none, none, [(b, 1)], false, true⟩] ++ lineFrom 0 1 b w') []),
            some (1 + w'.length))
          else if ((AhoCorasick.mk
              ([⟨none, none, [(b, 1)], false, true⟩] ++ lineFrom 0 1 b w') []).node
                (1 + w'.length)).children ≠ []
          then ((AhoCorasick.mk
              ([⟨none, none, [(b, 1)], false, true⟩] ++ lineFrom 0 1 b w') []).setTerminal
                (1 + w'.length) false, some (1 + w'.length))
          else (((AhoCorasick.mk
              ([⟨none, none, [(b, 1)], false, true⟩] ++ lineFrom 0 1 b w') []).setTerminal
                (1 + w'.length) false).rmLoop (1 + w'.length) ((b :: w').length + 1),
            some (1 + w'.length)))
        = _
      rw [hq]
      rw [if_neg (not_not_intro rfl), if_neg (not_not_intro rfl)]
    have hst := setTerminal_line_last w' 0 b [⟨none, none, [(b, 1)], false, true⟩] []
    rw [show ([(⟨none, none, [(b, 1)], false, true⟩ : Node)]).length = 1 from rfl] at hst
    have hloop := rmLoop_line w' 0 b 1 [⟨none, none, [(b, 1)], false, true⟩] [] []
      Nat.one_pos Nat.one_pos
    rw [show ([(⟨none, none, [(b, 1)], false, true⟩ : Node)]).length = 1 from rfl] at hloop
    simp only [List.append_nil] at hloop
    rw [show ([(⟨none, none, [(b, 1)], false, true⟩ : Node)]).getD 0 blank
        = ⟨none, none, [(b, 1)], false, true⟩ from rfl] at hloop
    have hroot : ({ (⟨none, none, [(b, 1)], false, true⟩ : Node) with
        children := (Node.children ⟨none, none, [(b, 1)], false, true⟩).filter
          (fun x => x.1 ≠ b) } : Node)
        = ⟨none, none, [], false, true⟩ := by
      simp
    rw [hroot] at hloop
    rw [show ([(⟨none, none, [(b, 1)], false, true⟩ : Node)]).set 0
          (⟨none, none, [], false, true⟩ : Node)
        = [(⟨none, none, [], false, true⟩ : Node)] from rfl] at hloop
    have hstop : AhoCorasick.rmLoop
        ⟨[(⟨none, none, [], false, true⟩ : Node)] ++ List.replicate (w'.length + 1) blank,
          List.range' 1 (w'.length + 1)⟩ 0 1
        = ⟨[(⟨none, none, [], false, true⟩ : Node)] ++ List.replicate (w'.length + 1) blank,
            List.range' 1 (w'.length + 1)⟩ := by
      rw [rmLoop, if_pos (show (0 : Nat) = root from rfl)]
    rw [hadd, hline]
    show ((AhoCorasick.mk
        ([⟨none, none, [(b, 1)], false, true⟩] ++ lineFrom 0 1 b w') []).rm_word (b :: w')).1
      = _
    rw [hrm]
    show ((AhoCorasick.mk
        ([⟨none, none, [(b, 1)], false, true⟩] ++ lineFrom 0 1 b w') []).setTerminal
          (1 + w'.length) false).rmLoop (1 + w'.length) ((b :: w').length + 1)
      = _
    rw [hst]
    rw [show (b :: w').length + 1 = 1 + (w'.length + 1) from by
      simp only [List.length_cons]; omega]
    rw [hloop, hstop]
    simp only [List.length_cons]
    rfl

end AhoCorasick

/-! ## Claim theorems

The theorems below settle the claims about the automaton; each cites its
claim id.  The index-taking read operations (`traverse`, `signature`,
`height`, `suffix_link`, `child`, the validators) are `const` member
functions of the C++ class and are embedded as pure functions from the
automaton, so they cannot modify the state by construction; the error
clauses below are the remaining content of the error-handling claims. -/

namespace AhoCorasick

/-- C8: `number_of_nodes()` is the arena size: it counts active and inactive
slots together, and a `rm_word` call — even one that frees nodes — never
decreases it (it leaves it exactly unchanged). -/
theorem claim_C8_number_of_nodes :
    (∀ ac : AhoCorasick,
      ac.nodes.countP (fun n => n.active) + ac.nodes.countP (fun n => !n.active)
        = ac.number_of_nodes)
    ∧ (∀ (ac : AhoCorasick) (w : List Nat),
        (ac.rm_word w).1.number_of_nodes = ac.number_of_nodes)
    ∧ (∀ (ac : AhoCorasick) (w : List Nat),
        ac.number_of_nodes ≤ (ac.rm_word w).1.number_of_nodes) := by
  refine ⟨fun ac => countP_active_split ac.nodes, fun ac w => number_of_nodes_rm_word ac w, ?_⟩
  intro ac w
  rw [number_of_nodes_rm_word ac w]

/-- C9: `child(parent, letter)` returns the `UNDEFINED` sentinel (embedded as
`none`) — not an error, and not the root — whenever the active node `parent`
has no child along `letter`; it errors exactly when `parent` is not an
active node index. -/
theorem claim_C9_child_undefined (ac : AhoCorasick) (p a : Nat) :
    (ac.isActive p = true → ac.child p a = .ok (ac.childNoChecks p a))
    ∧ (ac.isActive p = true → ac.childNoChecks p a = none →
        ac.child p a = .ok none ∧ (∀ e, ac.child p a ≠ .error e) ∧
          ac.child p a ≠ .ok (some AhoC.root))
    ∧ (ac.isActive p = false →
        ac.child p a = .error
          (if p < ac.number_of_nodes then .inactiveIndex p else .invalidIndex p)) := by
  refine ⟨fun h => child_ok a h, fun h hn => ?_, fun h => ?_⟩
  · rw [child_ok a h, hn]
    refine ⟨rfl, ?_, ?_⟩
    · intro e hc; cases hc
    · intro hc; cases hc
  · by_cases hlt : p < ac.number_of_nodes
    · rw [child_err a (validate_active_err_inactive hlt h), if_pos hlt]
    · rw [child_err a (validate_active_err_range (Nat.le_of_not_lt hlt)), if_neg hlt]

/-- Witness for C9 on concrete inputs: in the classic example automaton the
leaf for `"hers"` (index 9) has no child, so `child` returns the sentinel,
while an unallocated index is rejected. -/
theorem claim_C9_child_undefined_witness :
    acex.child 9 104 = .ok none ∧
      acex.child 99 104 = .error (.invalidIndex 99) := by
  have h1 := (claim_C9_child_undefined acex 9 104).2.1 (by decide) (by decide)
  have h2 := (claim_C9_child_undefined acex 99 104).2.2 (by decide)
  refine ⟨h1.1, ?_⟩
  simpa using h2

/-- C7: every index-taking operation errors — with a distinguishable error
value carrying the offending index and failed check — exactly when the
supplied index is out of range or names an inactive node;
`validate_active_node_index` fails for every `i ≥ number_of_nodes()` and for
every index freed by `rm_word`, and `suffix_link` on such an index errors
instead of silently returning the root.  (The operations are pure reads in
this embedding, matching the `const`-qualified C++ members, so the automaton
state is unchanged by construction.) -/
theorem claim_C7_validators (ac : AhoCorasick) (i : Nat) :
    (ac.number_of_nodes ≤ i →
      ac.validate_active_node_index i = .error (.invalidIndex i))
    ∧ (i < ac.number_of_nodes → ac.isActive i = false →
        ac.validate_active_node_index i = .error (.inactiveIndex i))
    ∧ (ac.isActive i = true → ac.validate_active_node_index i = .ok ())
    ∧ (∀ e, ac.validate_active_node_index i = .error e →
        ac.suffix_link i = .error e ∧ (∀ a, ac.traverse i a = .error e) ∧
          ac.signature i = .error e ∧ ac.height i = .error e ∧
          (∀ a, ac.child i a = .error e) ∧
          (∀ w, ac.traverse_word i w = .error e))
    ∧ (∀ j, AcError.invalidIndex i ≠ AcError.inactiveIndex j)
    ∧ (∀ w, ac.isActive i = true → (ac.rm_word w).1.isActive i = false →
        (ac.rm_word w).1.validate_active_node_index i = .error (.inactiveIndex i))
    ∧ (∀ e, ac.validate_active_node_index i = .error e →
        ac.suffix_link i ≠ .ok AhoC.root) := by
  refine ⟨fun h => validate_active_err_range h,
    fun h1 h2 => validate_active_err_inactive h1 h2,
    fun h => validate_active_ok h,
    fun e he => ⟨suffix_link_err he, fun a => traverse_err a he, signature_err he,
      height_err he, fun a => child_err a he, fun w => traverse_word_err w he⟩,
    ?_, ?_, ?_⟩
  · intro j h; cases h
  · intro w h1 h2
    have hlt : i < (ac.rm_word w).1.number_of_nodes := by
      rw [number_of_nodes_rm_word]
      exact lt_of_isActive h1
    exact validate_active_err_inactive hlt h2
  · intro e he hok
    rw [suffix_link_err he] at hok
    cases hok

/-- Witness for C7 on concrete inputs: after adding and removing `[1, 2, 3]`
the freed slot 3 is rejected as inactive, and index 99 is rejected as out of
range. -/
theorem claim_C7_validators_witness :
    ((emptyAC.add_word [1, 2, 3]).1.rm_word [1, 2, 3]).1.validate_active_node_index 3
        = .error (.inactiveIndex 3) ∧
      emptyAC.validate_active_node_index 99 = .error (.invalidIndex 99) := by
  constructor
  · exact (claim_C7_validators (emptyAC.add_word [1, 2, 3]).1 3).2.2.2.2.2.1
      [1, 2, 3] (by decide) (by decide)
  · exact (claim_C7_validators emptyAC 99).1 (by decide)

/-- C10: the `str` overloads of `add_word`, `rm_word` and `traverse_word`
agree — in returned value and resulting automaton state — with the word
overloads applied to the corresponding letter sequences, and the start-less
`traverse_word` overloads traverse from the root. -/
theorem claim_C10_str_overloads :
    (∀ (ac : AhoCorasick) (s : List Char),
      ac.add_word_str s = ac.add_word (s.map Char.toNat))
    ∧ (∀ (ac : AhoCorasick) (s : List Char),
        ac.rm_word_str s = ac.rm_word (s.map Char.toNat))
    ∧ (∀ (ac : AhoCorasick) (start : Nat) (s : List Char),
        ac.traverse_word_str start s = ac.traverse_word start (s.map Char.toNat))
    ∧ (∀ (ac : AhoCorasick) (w : List Nat),
        ac.traverse_word_root w = ac.traverse_word AhoC.root w)
    ∧ (∀ (ac : AhoCorasick) (s : List Char),
        ac.traverse_word_str_root s = ac.traverse_word_str AhoC.root s) :=
  ⟨fun ac s => add_word_str_eq ac s, fun ac s => rm_word_str_eq ac s,
    fun ac start s => traverse_word_str_eq ac start s,
    fun _ _ => rfl, fun _ _ => rfl⟩

/-- C6: `add_word(w)` followed by `rm_word(w)` on the empty automaton (a
trie containing no other word, in particular none sharing a prefix with `w`)
restores the empty-trie structure: the root is the only active node and it is
back to its initial childless non-terminal state (the freed slots remain in
the arena, inactive, as spec 4.1 prescribes).  Moreover removing a word that
was never added — its trie node is missing or non-terminal — is a no-op, not
an error: the state is returned unchanged together with the ordinary lookup
result. -/
theorem claim_C6_removal_inverse (w v : List Nat) (ac : AhoCorasick)
    (hv : ∀ i, ac.traverseTrie root v = some i → (ac.node i).terminal = false) :
    ((∀ i, (((emptyAC.add_word w).1.rm_word w).1.isActive i) = true ↔ i = root)
      ∧ (((emptyAC.add_word w).1.rm_word w).1.node root).children = []
      ∧ (((emptyAC.add_word w).1.rm_word w).1.node root).terminal = false)
    ∧ (ac.rm_word v).1 = ac ∧ (ac.rm_word v).2 = ac.traverseTrie root v := by
  refine ⟨?_, ?_⟩
  · rw [add_rm_empty w]
    refine ⟨?_, rfl, rfl⟩
    intro i
    constructor
    · intro h
      cases i with
      | zero => rfl
      | succ j =>
        exfalso
        have h2 : ((List.replicate w.length blank).getD j blank).active = true := h
        rw [getD_blank_replicate] at h2
        cases h2
    · intro h
      rw [h]
      rfl
  · cases htr : ac.traverseTrie root v with
    | none =>
      have hrm : ac.rm_word v = (ac, none) := by rw [rm_word, htr]
      rw [hrm]
      exact ⟨rfl, rfl⟩
    | some i =>
      have hterm := hv i htr
      have hrm : ac.rm_word v = (ac, some i) := by
        rw [rm_word, htr]
        show (if ¬ (ac.node i).terminal = true then (ac, some i)
            else if (ac.node i).children ≠ [] then (ac.setTerminal i false, some i)
            else ((ac.setTerminal i false).rmLoop i (v.length + 1), some i))
          = (ac, some i)
        rw [if_pos (show ¬ (ac.node i).terminal = true from
          fun hc => by rw [hc] at hterm; exact Bool.noConfusion hterm)]
      rw [hrm]
      exact ⟨rfl, rfl⟩

/-- Witness for C6 at concrete inputs: add-then-remove of `[1, 2]` leaves
only the root active, and removing the never-added `[3]` changes nothing. -/
theorem claim_C6_removal_inverse_witness :
    ((∀ i, (((emptyAC.add_word [1, 2]).1.rm_word [1, 2]).1.isActive i) = true ↔ i = root)
      ∧ (((emptyAC.add_word [1, 2]).1.rm_word [1, 2]).1.node root).children = []
      ∧ (((emptyAC.add_word [1, 2]).1.rm_word [1, 2]).1.node root).terminal = false)
    ∧ (emptyAC.rm_word [3]).1 = emptyAC
    ∧ (emptyAC.rm_word [3]).2 = emptyAC.traverseTrie root [3] :=
  claim_C6_removal_inverse [1, 2] [3] emptyAC (fun _ h => Option.noConfusion h)

end AhoCorasick

end AhoC
